import Mathlib

/-!
Verification development for a node-local CPU management subsystem:
pod QoS classification (`pkg/apis/core/qos`), the real-time CPU policy and
its `RtState` (`pkg/kubelet/cm/cpumanager`), the internal container
lifecycle hooks (`pkg/kubelet/cm`), and the balanced-resource node scorer
(`pkg/scheduler/algorithm/priorities`).

Modelling conventions:
* Go `float64` values are modelled exactly as rationals (`ℚ`);
* Go maps are modelled as association lists; a map read of a missing key
  yields the zero value, as in Go;
* a Go `panic` is modelled by returning `none` from the operation;
* Go errors are modelled by the `GoResult` type;
* process-global feature gates are modelled as explicit `Bool` parameters.
-/

/-! ### Association lists (model of Go maps) -/

/-- Look up a key in an association list: the value at the first matching
key, mirroring a Go map read (Go maps hold each key at most once). -/
def mapLookup {κ α : Type} [DecidableEq κ] (k : κ) : List (κ × α) → Option α
  | [] => none
  | p :: t => if p.1 = k then some p.2 else mapLookup k t

/-- Write a key/value pair into an association list: replace the value at
the first matching key in place, or append the pair at the end when the
key is absent (a Go map write `m[k] = v`). -/
def mapInsert {κ α : Type} [DecidableEq κ] (k : κ) (v : α) : List (κ × α) → List (κ × α)
  | [] => [(k, v)]
  | p :: t => if p.1 = k then (k, v) :: t else p :: mapInsert k v t

/-- Remove the first entry with the given key (a Go `delete(m, k)`). -/
def mapErase {κ α : Type} [DecidableEq κ] (k : κ) : List (κ × α) → List (κ × α)
  | [] => []
  | p :: t => if p.1 = k then t else p :: mapErase k t

/-- Read with Go zero-value semantics for numeric maps. -/
def mapRead {κ : Type} [DecidableEq κ] (m : List (κ × ℚ)) (k : κ) : ℚ :=
  (mapLookup k m).getD 0

/-! ### Go error values -/

/-- A Go `error` result: `nil` (`ok`) or a non-nil error with a message. -/
inductive GoResult : Type
  | ok : GoResult
  | fail (msg : String) : GoResult
deriving DecidableEq

/-! ### Pod QoS classification (`GetPodQOS`) -/

/-- Resource names as they appear in pod resource lists.  The recognised
compute resources are listed as constructors; `other n` stands for any
other (unrecognised or extended) resource name. -/
inductive ResourceName : Type
  | cpu
  | memory
  | rtPeriod
  | rtRuntime
  | rtCpu
  | other (n : Nat)
deriving DecidableEq

/-- `isSupportedQoSComputeResource` from the source: membership in
`{cpu, memory, rt-runtime, rt-period, rt-cpu}`. -/
def isSupportedQoSComputeResource : ResourceName → Bool
  | ResourceName.cpu => true
  | ResourceName.memory => true
  | ResourceName.rtPeriod => true
  | ResourceName.rtRuntime => true
  | ResourceName.rtCpu => true
  | ResourceName.other _ => false

/-- A container's resource requirements: `requests` and `limits`, each a
resource-name → quantity map (quantities modelled as `ℚ`; the source
compares them with `Quantity.Cmp`, which is numeric comparison). -/
structure ContainerM : Type where
  requests : List (ResourceName × ℚ)
  limits : List (ResourceName × ℚ)
deriving DecidableEq

/-- A pod: regular containers and init containers. -/
structure PodM : Type where
  containers : List ContainerM
  initContainers : List ContainerM
deriving DecidableEq

/-- The three QoS classes. -/
inductive PodQOSClass : Type
  | guaranteed
  | burstable
  | bestEffort
deriving DecidableEq

/-- One step of the aggregation loop in `GetPodQOS`: a supported resource
with a positive quantity is added into the aggregate map (`delta.Add` on
an existing entry, plain insert otherwise); anything else is skipped. -/
def qosStep (a : List (ResourceName × ℚ)) (p : ResourceName × ℚ) :
    List (ResourceName × ℚ) :=
  if isSupportedQoSComputeResource p.1 = true ∧ 0 < p.2 then
    match mapLookup p.1 a with
    | none => a ++ [(p.1, p.2)]
    | some old => mapInsert p.1 (p.2 + old) a
  else a

/-- The aggregation loop of `GetPodQOS` over one container's resource
list. -/
def qosAccumulate (acc : List (ResourceName × ℚ)) (rl : List (ResourceName × ℚ)) :
    List (ResourceName × ℚ) :=
  rl.foldl qosStep acc

/-- The per-container `qosLimitsFound` check from `GetPodQOS`: the
container's positive supported limits contain both `cpu` and `memory`,
or contain `rt-runtime`. -/
def limitsCompleteContainer (c : ContainerM) : Bool :=
  let found := (c.limits.filter
    (fun p => isSupportedQoSComputeResource p.1 && decide (0 < p.2))).map Prod.fst
  (found.contains ResourceName.cpu && found.contains ResourceName.memory) ||
    found.contains ResourceName.rtRuntime

/-- All containers of a pod, regular containers first (source order). -/
def allContainersOf (pod : PodM) : List ContainerM :=
  pod.containers ++ pod.initContainers

/-- The aggregate `requests` map built by `GetPodQOS`. -/
def podRequests (pod : PodM) : List (ResourceName × ℚ) :=
  (allContainersOf pod).foldl (fun acc c => qosAccumulate acc c.requests) []

/-- The aggregate `limits` map built by `GetPodQOS`. -/
def podLimits (pod : PodM) : List (ResourceName × ℚ) :=
  (allContainersOf pod).foldl (fun acc c => qosAccumulate acc c.limits) []

/-- `GetPodQOS`: BestEffort when both aggregates are empty; Guaranteed when
every container's limits are complete, every aggregated request matches
the aggregated limit exactly, and the two aggregates have the same number
of keys; Burstable otherwise. -/
def getPodQOS (pod : PodM) : PodQOSClass :=
  let requests := podRequests pod
  let limits := podLimits pod
  let isGuaranteed := (allContainersOf pod).all limitsCompleteContainer
  if requests = [] ∧ limits = [] then PodQOSClass.bestEffort
  else if isGuaranteed = true ∧
      (∀ p ∈ requests, mapLookup p.1 limits = some p.2) ∧
      requests.length = limits.length then
    PodQOSClass.guaranteed
  else PodQOSClass.burstable

/-! ### RtState (`pkg/kubelet/cm/cpumanager/state/rt_state.go`) -/

/-- The real-time state: the wrapped checkpoint state's
`containerId → CPUSet` assignments, the parallel `containerId → util`
map, and the derived `cpuId → accumulated util` map.  CPU sets are
models of `cpuset.CPUSet` values: duplicate-free lists of CPU ids. -/
structure RtStateM : Type where
  assignments : List (String × List ℤ)
  containerToUtil : List (String × ℚ)
  cpuToUtil : List (ℤ × ℚ)
deriving DecidableEq

/-- Apply `f` to the map entry of every CPU in `set` with Go read/write
semantics (a missing key reads as 0 and is inserted by the write), one
CPU at a time, as the `for _, cpu := range set` loops do. -/
def updOn (f : ℚ → ℚ) (m : List (ℤ × ℚ)) (set : List ℤ) : List (ℤ × ℚ) :=
  set.foldl (fun acc cpu => mapInsert cpu (f (mapRead acc cpu)) acc) m

/-- `NewRtState`: wrap an underlying state; `containerToUtil` starts empty
and `cpuToUtil` maps every CPU of the default CPU set to 0. -/
def newRtState (assignments : List (String × List ℤ)) (defaultCpuSet : List ℤ) : RtStateM :=
  { assignments := assignments
    containerToUtil := []
    cpuToUtil := defaultCpuSet.map (fun cpu => (cpu, 0)) }

/-- `GetRtCPUSetAndUtilOfContainer`: the pair, if both maps contain the
container. -/
def getRtCPUSetAndUtilOfContainer (s : RtStateM) (cid : String) : Option (List ℤ × ℚ) :=
  match mapLookup cid s.assignments with
  | none => none
  | some set =>
    match mapLookup cid s.containerToUtil with
    | none => none
    | some util => some (set, util)

/-- `SetRtCPUSetAndUtilOfContainer`: if the container already has a
utilisation, first subtract the old utilisation from every CPU of its old
set (`none` models the source's `panic` when the utilisation exists but
the CPU set does not); then record the new set and utilisation and add
the new utilisation to every CPU of the new set. -/
def setRtCPUSetAndUtilOfContainer (s : RtStateM) (cid : String) (set : List ℤ) (util : ℚ) :
    Option RtStateM :=
  match mapLookup cid s.containerToUtil with
  | some oldUtil =>
    match mapLookup cid s.assignments with
    | none => none
    | some oldSet =>
      some { assignments := mapInsert cid set s.assignments
             containerToUtil := mapInsert cid util s.containerToUtil
             cpuToUtil := updOn (fun v => v + util) (updOn (fun v => v - oldUtil) s.cpuToUtil oldSet) set }
  | none =>
    some { assignments := mapInsert cid set s.assignments
           containerToUtil := mapInsert cid util s.containerToUtil
           cpuToUtil := updOn (fun v => v + util) s.cpuToUtil set }

/-- `RtState.Delete`: `none` models the source's `panic` when the
container has no CPU-set assignment.  When the assignment exists but no
utilisation was recorded, only the underlying assignment is deleted.
Otherwise the utilisation is subtracted from every CPU of the set,
clamping at zero, and the container is removed from both maps. -/
def rtDelete (s : RtStateM) (cid : String) : Option RtStateM :=
  match mapLookup cid s.assignments with
  | none => none
  | some _ =>
    match getRtCPUSetAndUtilOfContainer s cid with
    | none => some { s with assignments := mapErase cid s.assignments }
    | some (set, util) =>
      some { assignments := mapErase cid s.assignments
             containerToUtil := mapErase cid s.containerToUtil
             cpuToUtil := updOn (fun v => if v - util < 0 then 0 else v - util) s.cpuToUtil set }

/-- `CpuToUtilMap`: a defensive copy of the per-CPU utilisation map. -/
def cpuToUtilMapOf (s : RtStateM) : List (ℤ × ℚ) :=
  s.cpuToUtil

/-- A direct `RtState` mutation, as performed through
`SetRtCPUSetAndUtilOfContainer` and `Delete`. -/
inductive RtOp : Type
  | set (cid : String) (cpus : List ℤ) (util : ℚ)
  | del (cid : String)

/-- Apply one operation; `none` models an operation that panics. -/
def applyRtOp (s : RtStateM) : RtOp → Option RtStateM
  | RtOp.set cid cpus util => setRtCPUSetAndUtilOfContainer s cid cpus util
  | RtOp.del cid => rtDelete s cid

/-- Run a sequence of operations; `none` as soon as one panics. -/
def applyRtOps (s : RtStateM) (ops : List RtOp) : Option RtStateM :=
  ops.foldlM applyRtOp s

/-- Wellformedness of an operation's arguments: a `cpuset.CPUSet` holds
distinct CPU ids, and a utilisation share `runtime/period` is
nonnegative (the data model declares `utilOf : containerId → [0, 1)`). -/
def rtOpWF : RtOp → Prop
  | RtOp.set _ cpus util => cpus.Nodup ∧ 0 ≤ util
  | RtOp.del _ => True

/-- The sum of the utilisations of all containers whose assignment
contains CPU `i` (a container with no recorded utilisation counts 0). -/
def sumUtilAt (s : RtStateM) (i : ℤ) : ℚ :=
  (s.assignments.map (fun p => if i ∈ p.2 then mapRead s.containerToUtil p.1 else 0)).sum

/-! ### Real-time policy (`policy_real_time.go`) -/

/-- A CPU id paired with its worst-fit score (`scoredCpu` in the source). -/
structure ScoredCpu : Type where
  cpu : ℤ
  score : ℚ
deriving DecidableEq

/-- The ordering used by the stable sort in `worstFit`: higher scores
first.  (`sort.SliceStable` with `less i j ↔ score i > score j` computes
exactly the stable sort for this total preorder.) -/
def wfRel (a b : ScoredCpu) : Prop :=
  b.score ≤ a.score

instance : DecidableRel wfRel := fun a b => inferInstanceAs (Decidable (b.score ≤ a.score))

instance : IsTotal ScoredCpu wfRel := ⟨fun a b => le_total b.score a.score⟩

instance : IsTrans ScoredCpu wfRel := ⟨fun _ _ _ h1 h2 => le_trans h2 h1⟩

/-- The candidate-building loop of `worstFit`: keep every CPU whose score
`allocableRtUtil − util − reqUtil` is positive, with that score. -/
def wfFilter (allocableRtUtil reqUtil : ℚ) (cpuToUtil : List (ℤ × ℚ)) : List ScoredCpu :=
  cpuToUtil.filterMap
    (fun p =>
      if 0 < allocableRtUtil - p.2 - reqUtil then
        some { cpu := p.1, score := allocableRtUtil - p.2 - reqUtil }
      else none)

/-- `worstFit`: score the CPUs of the snapshot, return the empty list when
fewer than `reqCpus` fit, otherwise stably sort by descending score and
take the first `reqCpus` CPU ids. -/
def worstFit (allocableRtUtil : ℚ) (cpuToUtil : List (ℤ × ℚ)) (reqUtil : ℚ) (reqCpus : ℤ) :
    List ℤ :=
  let scoredCpus := wfFilter allocableRtUtil reqUtil cpuToUtil
  if (scoredCpus.length : ℤ) < reqCpus then []
  else ((List.insertionSort wfRel scoredCpus).take reqCpus.toNat).map ScoredCpu.cpu

/-- The requested utilisation share: `runtime/period` when the period is
nonzero, 0 otherwise (the source guards the division the same way). -/
def reqUtilOf (reqPeriod reqRuntime : ℤ) : ℚ :=
  if reqPeriod ≠ 0 then (reqRuntime : ℚ) / (reqPeriod : ℚ) else 0

/-- `realTimePolicy.AddContainer` on the extracted request triple
`(period, runtime, cpuCount)`: no-op success when the utilisation share is
zero or the container is already assigned; `DoesNotFit` (state untouched)
when `worstFit` returns fewer than `cpuCount` CPUs; otherwise commit via
`SetRtCPUSetAndUtilOfContainer`.  `none` models a panic. -/
def addContainer (allocableRtUtil : ℚ) (s : RtStateM)
    (reqPeriod reqRuntime reqCpus : ℤ) (cid : String) :
    Option (GoResult × RtStateM) :=
  let reqUtil := reqUtilOf reqPeriod reqRuntime
  if reqUtil = 0 then some (GoResult.ok, s)
  else if (getRtCPUSetAndUtilOfContainer s cid).isSome then some (GoResult.ok, s)
  else
    let cpus := worstFit allocableRtUtil (cpuToUtilMapOf s) reqUtil reqCpus
    if (cpus.length : ℤ) < reqCpus then some (GoResult.fail "container does not fit", s)
    else (setRtCPUSetAndUtilOfContainer s cid cpus reqUtil).map (fun s2 => (GoResult.ok, s2))

/-! ### Internal container lifecycle (`internal_container_lifecycle.go`) -/

/-- `PostStopContainer`: when the CPU manager feature gate is enabled,
call `cpuManager.RemoveContainer` and return its error if non-nil; then,
when the topology manager gate is enabled, call its `RemoveContainer` and
return its error if non-nil; otherwise return nil.  The collaborator
calls are modelled by their predetermined results. -/
def postStopContainer (cpuManagerEnabled topologyManagerEnabled : Bool)
    (cpuRemoveResult topologyRemoveResult : GoResult) : GoResult :=
  if cpuManagerEnabled = true ∧ cpuRemoveResult ≠ GoResult.ok then cpuRemoveResult
  else if topologyManagerEnabled = true ∧ topologyRemoveResult ≠ GoResult.ok then
    topologyRemoveResult
  else GoResult.ok

/-! ### Balanced resource scoring (`balanced_resource_allocation.go`) -/

/-- `fractionOfCapacity`: 0 when nothing is requested, 1 when there is no
capacity, the ratio otherwise. -/
def fractionOfCapacity (requested capacity : ℤ) : ℚ :=
  if requested = 0 then 0
  else if capacity = 0 then 1
  else (requested : ℚ) / (capacity : ℚ)

/-- The fraction-collecting loop of `balancedResourceScorer`: walk the
requested map; as soon as one fraction reaches 1 the scorer returns 0,
modelled by `none`. -/
def collectFractions (allocable : List (ResourceName × ℤ)) :
    List (ResourceName × ℤ) → Option (List ℚ)
  | [] => some []
  | p :: rest =>
    let f := fractionOfCapacity p.2 ((mapLookup p.1 allocable).getD 0)
    if 1 ≤ f then none
    else (collectFractions allocable rest).map (fun fs => f :: fs)

/-- The `mean` accumulator of the source's `variance`: the sum of `t/n`
over the terms. -/
def meanOf (terms : List ℚ) : ℚ :=
  (terms.map (fun t => t / (terms.length : ℚ))).sum

/-- `variance`: the population variance exactly as computed by the source
(`mean` as a sum of `t/n`, then `num`, the sum of squared deviations,
divided by `n`). -/
def variance (terms : List ℚ) : ℚ :=
  (terms.map (fun t => (t - meanOf terms) * (t - meanOf terms))).sum / (terms.length : ℚ)

/-- Go's `int64(x)` conversion of a float: truncation toward zero. -/
def int64Trunc (q : ℚ) : ℤ :=
  if 0 ≤ q then ⌊q⌋ else ⌈q⌉

/-- `framework.MaxNodeScore`. -/
def maxNodeScore : ℚ := 100

/-- The full fraction list the scorer works on: the resource fractions,
plus `requestedVolumes/allocatableVolumes` appended when volume scoring is
requested, the `BalanceAttachedNodeVolumes` feature gate is enabled and
the denominator is positive.  `none` when a resource fraction reached 1. -/
def scorerFractions (requested allocable : List (ResourceName × ℤ))
    (includeVolumes balanceVolumesEnabled : Bool)
    (requestedVolumes allocatableVolumes : ℤ) : Option (List ℚ) :=
  (collectFractions allocable requested).map
    (fun fs =>
      if includeVolumes = true ∧ balanceVolumesEnabled = true ∧ 0 < allocatableVolumes then
        fs ++ [(requestedVolumes : ℚ) / (allocatableVolumes : ℚ)]
      else fs)

/-- `balancedResourceScorer`: 0 when some resource fraction reaches 1;
with exactly two fractions, `int64((1 − |a − b|) · MaxNodeScore)`;
otherwise `int64((1 − variance) · MaxNodeScore)`. -/
def balancedResourceScorer (requested allocable : List (ResourceName × ℤ))
    (includeVolumes balanceVolumesEnabled : Bool)
    (requestedVolumes allocatableVolumes : ℤ) : ℤ :=
  match scorerFractions requested allocable includeVolumes balanceVolumesEnabled
      requestedVolumes allocatableVolumes with
  | none => 0
  | some fractions =>
    match fractions with
    | [a, b] => int64Trunc ((1 - |a - b|) * maxNodeScore)
    | _ => int64Trunc ((1 - variance fractions) * maxNodeScore)

/-- Modelled from the spec: rounding to the nearest integer ("score =
round((1 − |a − b|) · MaxNodeScore)"), used to compare the spec's claimed
rounding against the code's truncation. -/
def specRound (q : ℚ) : ℤ :=
  ⌊q + 1 / 2⌋


/-! ### Association-list lemmas -/

theorem mapLookup_eq_none_iff {κ α : Type} [DecidableEq κ] (k : κ) (l : List (κ × α)) :
    mapLookup k l = none ↔ k ∉ l.map Prod.fst := by
  induction l with
  | nil => simp [mapLookup]
  | cons p t ih =>
    obtain ⟨a, b⟩ := p
    by_cases h : a = k <;> simp [mapLookup, h, ih, Ne.symm]

theorem mapLookup_mapInsert {κ α : Type} [DecidableEq κ] (k k1 : κ) (v : α)
    (l : List (κ × α)) :
    mapLookup k1 (mapInsert k v l) = if k1 = k then some v else mapLookup k1 l := by
  induction l with
  | nil =>
    by_cases h : k1 = k <;> simp [mapInsert, mapLookup, h, Ne.symm]
  | cons p t ih =>
    obtain ⟨a, b⟩ := p
    by_cases ha : a = k
    · subst ha
      by_cases h1 : k1 = a <;> simp [mapInsert, mapLookup, h1, Ne.symm]
    · by_cases h2 : a = k1
      · subst h2
        have hne : a ≠ k := ha
        simp [mapInsert, mapLookup, ha, hne]
      · simp [mapInsert, mapLookup, ha, h2, ih]

theorem mapLookup_mapErase_ne {κ α : Type} [DecidableEq κ] (k k1 : κ)
    (l : List (κ × α)) (h : k1 ≠ k) :
    mapLookup k1 (mapErase k l) = mapLookup k1 l := by
  induction l with
  | nil => simp [mapErase]
  | cons p t ih =>
    obtain ⟨a, b⟩ := p
    by_cases ha : a = k
    · subst ha
      have hne : ¬a = k1 := fun he => h he.symm
      simp [mapErase, mapLookup, hne]
    · by_cases h2 : a = k1
      · subst h2
        simp [mapErase, mapLookup, ha]
      · simp [mapErase, mapLookup, ha, h2, ih]

theorem mem_of_mapLookup_eq_some {κ α : Type} [DecidableEq κ] {k : κ} {v : α}
    {l : List (κ × α)} (h : mapLookup k l = some v) : (k, v) ∈ l := by
  induction l with
  | nil => simp [mapLookup] at h
  | cons p t ih =>
    obtain ⟨a, b⟩ := p
    by_cases ha : a = k
    · subst ha
      simp [mapLookup] at h
      simp [h]
    · simp [mapLookup, ha] at h
      exact List.mem_cons_of_mem _ (ih h)

theorem mapLookup_eq_some_of_mem {κ α : Type} [DecidableEq κ] {k : κ} {v : α}
    {l : List (κ × α)} (hnd : (l.map Prod.fst).Nodup) (h : (k, v) ∈ l) :
    mapLookup k l = some v := by
  induction l with
  | nil => simp at h
  | cons p t ih =>
    obtain ⟨a, b⟩ := p
    simp only [List.map_cons, List.nodup_cons] at hnd
    rcases List.mem_cons.mp h with h1 | h1
    · injection h1 with h1a h1b
      subst h1a
      subst h1b
      simp [mapLookup]
    · have hk : a ≠ k := by
        intro he
        exact hnd.1 (he ▸ (List.mem_map.mpr ⟨(k, v), h1, rfl⟩))
      simp [mapLookup, hk, ih hnd.2 h1]

theorem keys_mapInsert_of_mem {κ α : Type} [DecidableEq κ] (k : κ) (v : α)
    (l : List (κ × α)) (h : k ∈ l.map Prod.fst) :
    (mapInsert k v l).map Prod.fst = l.map Prod.fst := by
  induction l with
  | nil => simp at h
  | cons p t ih =>
    obtain ⟨a, b⟩ := p
    by_cases ha : a = k
    · simp [mapInsert, ha]
    · have : k ∈ t.map Prod.fst := by
        rcases List.mem_cons.mp h with h1 | h1
        · exact absurd h1.symm ha
        · exact h1
      simp [mapInsert, ha, ih this]

theorem keys_mapInsert_of_not_mem {κ α : Type} [DecidableEq κ] (k : κ) (v : α)
    (l : List (κ × α)) (h : k ∉ l.map Prod.fst) :
    (mapInsert k v l).map Prod.fst = l.map Prod.fst ++ [k] := by
  induction l with
  | nil => simp [mapInsert]
  | cons p t ih =>
    obtain ⟨a, b⟩ := p
    simp only [List.map_cons, List.mem_cons] at h
    push_neg at h
    have ha : a ≠ k := fun he => h.1 he.symm
    simp [mapInsert, ha, ih h.2]

theorem keys_nodup_mapInsert {κ α : Type} [DecidableEq κ] (k : κ) (v : α)
    (l : List (κ × α)) (hnd : (l.map Prod.fst).Nodup) :
    ((mapInsert k v l).map Prod.fst).Nodup := by
  by_cases h : k ∈ l.map Prod.fst
  · rw [keys_mapInsert_of_mem k v l h]
    exact hnd
  · rw [keys_mapInsert_of_not_mem k v l h, List.nodup_append]
    refine ⟨hnd, List.nodup_singleton k, ?_⟩
    intro x hx hx2
    rw [List.mem_singleton] at hx2
    subst hx2
    exact h hx

theorem mapErase_sublist {κ α : Type} [DecidableEq κ] (k : κ) (l : List (κ × α)) :
    List.Sublist (mapErase k l) l := by
  induction l with
  | nil => simp [mapErase]
  | cons p t ih =>
    by_cases h : p.1 = k
    · simp only [mapErase, if_pos h]
      exact List.sublist_cons_self p t
    · simp only [mapErase, if_neg h]
      exact List.Sublist.cons₂ p ih

theorem keys_nodup_mapErase {κ α : Type} [DecidableEq κ] (k : κ) (l : List (κ × α))
    (hnd : (l.map Prod.fst).Nodup) : ((mapErase k l).map Prod.fst).Nodup :=
  List.Sublist.nodup (List.Sublist.map Prod.fst (mapErase_sublist k l)) hnd

theorem perm_cons_mapErase {κ α : Type} [DecidableEq κ] {k : κ} {v : α}
    {l : List (κ × α)} (h : mapLookup k l = some v) :
    l.Perm ((k, v) :: mapErase k l) := by
  induction l with
  | nil => simp [mapLookup] at h
  | cons p t ih =>
    obtain ⟨a, b⟩ := p
    by_cases ha : a = k
    · subst ha
      simp [mapLookup] at h
      subst h
      simp [mapErase]
    · simp [mapLookup, ha] at h
      have := (ih h).cons (a, b)
      simpa [mapErase, ha] using this.trans (List.Perm.swap _ _ _)

theorem mapErase_eq_of_lookup_none {κ α : Type} [DecidableEq κ] {k : κ}
    {l : List (κ × α)} (h : mapLookup k l = none) : mapErase k l = l := by
  induction l with
  | nil => simp [mapErase]
  | cons p t ih =>
    obtain ⟨a, b⟩ := p
    by_cases ha : a = k
    · simp [mapLookup, ha] at h
    · simp [mapLookup, ha] at h
      simp [mapErase, ha, ih h]

theorem perm_mapInsert {κ α : Type} [DecidableEq κ] (k : κ) (v : α) (l : List (κ × α)) :
    (mapInsert k v l).Perm ((k, v) :: mapErase k l) := by
  induction l with
  | nil => simp [mapInsert, mapErase]
  | cons p t ih =>
    obtain ⟨a, b⟩ := p
    by_cases ha : a = k
    · simp [mapInsert, mapErase, ha]
    · have := ih.cons (a, b)
      simpa [mapInsert, mapErase, ha] using this.trans (List.Perm.swap _ _ _)

theorem key_ne_of_mem_mapErase {κ α : Type} [DecidableEq κ] {k : κ} {p : κ × α}
    {l : List (κ × α)} (hnd : (l.map Prod.fst).Nodup) (h : p ∈ mapErase k l) : p.1 ≠ k := by
  induction l with
  | nil => simp [mapErase] at h
  | cons q t ih =>
    obtain ⟨a, b⟩ := q
    simp only [List.map_cons, List.nodup_cons] at hnd
    by_cases ha : a = k
    · subst ha
      simp only [mapErase, if_pos rfl] at h
      intro he
      exact hnd.1 (he ▸ (List.mem_map.mpr ⟨p, h, rfl⟩))
    · simp only [mapErase, if_neg ha] at h
      rcases List.mem_cons.mp h with h1 | h1
      · intro he
        exact ha ((congrArg Prod.fst h1).symm.trans he ▸ rfl)
      · exact ih hnd.2 h1

/-! ### Scorer lemmas -/

theorem mapLookup_getD_nonneg {κ : Type} [DecidableEq κ] (l : List (κ × ℤ)) (k : κ)
    (h : ∀ p ∈ l, 0 ≤ p.2) : (0 : ℤ) ≤ (mapLookup k l).getD 0 := by
  cases hl : mapLookup k l with
  | none => simp
  | some v => simpa using h (k, v) (mem_of_mapLookup_eq_some hl)

theorem fractionOfCapacity_nonneg (r c : ℤ) (hr : 0 ≤ r) (hc : 0 ≤ c) :
    0 ≤ fractionOfCapacity r c := by
  by_cases h0 : r = 0
  · simp [fractionOfCapacity, h0]
  · by_cases h1 : c = 0
    · simp [fractionOfCapacity, h0, h1]
    · rw [fractionOfCapacity, if_neg h0, if_neg h1]
      exact div_nonneg (by exact_mod_cast hr) (by exact_mod_cast hc)

theorem collectFractions_mem_lt_one (al req : List (ResourceName × ℤ)) :
    ∀ fs, collectFractions al req = some fs → ∀ f ∈ fs, f < 1 := by
  induction req with
  | nil =>
    intro fs h f hf
    simp [collectFractions] at h
    subst h
    simp at hf
  | cons p rest ih =>
    intro fs h f hf
    rw [collectFractions] at h
    by_cases hc : 1 ≤ fractionOfCapacity p.2 ((mapLookup p.1 al).getD 0)
    · simp [hc] at h
    · rw [if_neg hc, Option.map_eq_some'] at h
      obtain ⟨fs2, h2, rfl⟩ := h
      rcases List.mem_cons.mp hf with rfl | hmem
      · exact lt_of_not_le hc
      · exact ih fs2 h2 f hmem

theorem collectFractions_mem_nonneg (al req : List (ResourceName × ℤ))
    (hreq : ∀ p ∈ req, 0 ≤ p.2) (hal : ∀ p ∈ al, 0 ≤ p.2) :
    ∀ fs, collectFractions al req = some fs → ∀ f ∈ fs, 0 ≤ f := by
  induction req with
  | nil =>
    intro fs h f hf
    simp [collectFractions] at h
    subst h
    simp at hf
  | cons p rest ih =>
    intro fs h f hf
    rw [collectFractions] at h
    by_cases hc : 1 ≤ fractionOfCapacity p.2 ((mapLookup p.1 al).getD 0)
    · simp [hc] at h
    · rw [if_neg hc, Option.map_eq_some'] at h
      obtain ⟨fs2, h2, rfl⟩ := h
      rcases List.mem_cons.mp hf with rfl | hmem
      · exact fractionOfCapacity_nonneg _ _ (hreq p (by simp)) (mapLookup_getD_nonneg al p.1 hal)
      · exact ih (fun q hq => hreq q (List.mem_cons_of_mem _ hq)) fs2 h2 f hmem

theorem collectFractions_length (al req : List (ResourceName × ℤ)) :
    ∀ fs, collectFractions al req = some fs → fs.length = req.length := by
  induction req with
  | nil =>
    intro fs h
    simp [collectFractions] at h
    subst h
    rfl
  | cons p rest ih =>
    intro fs h
    rw [collectFractions] at h
    by_cases hc : 1 ≤ fractionOfCapacity p.2 ((mapLookup p.1 al).getD 0)
    · simp [hc] at h
    · rw [if_neg hc, Option.map_eq_some'] at h
      obtain ⟨fs2, h2, rfl⟩ := h
      simp [ih fs2 h2]

theorem variance_nonneg (terms : List ℚ) : 0 ≤ variance terms := by
  apply div_nonneg
  · apply List.sum_nonneg
    intro x hx
    rcases List.mem_map.mp hx with ⟨t, _, rfl⟩
    exact mul_self_nonneg _
  · exact_mod_cast Nat.zero_le _

theorem meanOf_mem_Icc (terms : List ℚ) (h : ∀ t ∈ terms, 0 ≤ t ∧ t ≤ 1) :
    0 ≤ meanOf terms ∧ meanOf terms ≤ 1 := by
  rcases eq_or_ne terms [] with rfl | hne
  · simp [meanOf]
  · have hn : 0 < (terms.length : ℚ) := by
      exact_mod_cast List.length_pos.mpr hne
    constructor
    · apply List.sum_nonneg
      intro x hx
      rcases List.mem_map.mp hx with ⟨t, ht, rfl⟩
      exact div_nonneg (h t ht).1 hn.le
    · have hb : ∀ x ∈ terms.map (fun t => t / (terms.length : ℚ)), x ≤ 1 / (terms.length : ℚ) := by
        intro x hx
        rcases List.mem_map.mp hx with ⟨t, ht, rfl⟩
        exact (div_le_div_iff_of_pos_right hn).mpr (h t ht).2
      have := List.sum_le_card_nsmul (terms.map (fun t => t / (terms.length : ℚ)))
        (1 / (terms.length : ℚ)) hb
      rw [List.length_map, nsmul_eq_mul] at this
      calc meanOf terms ≤ (terms.length : ℚ) * (1 / (terms.length : ℚ)) := this
        _ = 1 := by
          field_simp
  
theorem variance_le_one (terms : List ℚ) (h : ∀ t ∈ terms, 0 ≤ t ∧ t ≤ 1) :
    variance terms ≤ 1 := by
  rcases eq_or_ne terms [] with rfl | hne
  · simp [variance]
  · have hn : 0 < (terms.length : ℚ) := by
      exact_mod_cast List.length_pos.mpr hne
    obtain ⟨hm0, hm1⟩ := meanOf_mem_Icc terms h
    rw [variance, div_le_one hn]
    have hb : ∀ x ∈ terms.map (fun t => (t - meanOf terms) * (t - meanOf terms)), x ≤ 1 := by
      intro x hx
      rcases List.mem_map.mp hx with ⟨t, ht, rfl⟩
      obtain ⟨ht0, ht1⟩ := h t ht
      nlinarith
    have := List.sum_le_card_nsmul
      (terms.map (fun t => (t - meanOf terms) * (t - meanOf terms))) 1 hb
    rw [List.length_map, nsmul_eq_mul, mul_one] at this
    exact this

theorem int64Trunc_nonneg_le_100 (q : ℚ) (h0 : 0 ≤ q) (h1 : q ≤ 100) :
    0 ≤ int64Trunc q ∧ int64Trunc q ≤ 100 := by
  rw [int64Trunc, if_pos h0]
  constructor
  · exact Int.le_floor.mpr (by exact_mod_cast h0)
  · have h2 : ⌊q⌋ ≤ ⌊(100 : ℚ)⌋ := Int.floor_le_floor h1
    have h3 : ⌊(100 : ℚ)⌋ = 100 := by norm_num
    omega

/-! ### Claim C4 -/

/-- C4 (counterexample): with volume balancing enabled and
`requestedVolumes = 100 > 1 = allocatableVolumes`, the scorer returns
−9900, far outside `[0, 100]`: the volume fraction is appended without
the `f ≥ 1` overbook check that guards resource fractions. -/
theorem balancedResourceScorer_excess_volume_negative :
    balancedResourceScorer [(ResourceName.cpu, 0)] [(ResourceName.cpu, 1)] true true 100 1
      = -9900 := by
  have h1 : scorerFractions [(ResourceName.cpu, 0)] [(ResourceName.cpu, 1)] true true 100 1
      = some [0, 100] := by
    rw [scorerFractions,
      show collectFractions [(ResourceName.cpu, 1)] [(ResourceName.cpu, 0)] = some [0] from by
        decide]
    norm_num
  rw [balancedResourceScorer, h1]
  show int64Trunc ((1 - |(0 : ℚ) - 100|) * maxNodeScore) = -9900
  have habs : |(0 : ℚ) - 100| = 100 := by
    rw [abs_of_nonpos] <;> norm_num
  rw [show ((1 : ℚ) - |(0 : ℚ) - 100|) * maxNodeScore = ((-9900 : ℤ) : ℚ) from by
    rw [habs, maxNodeScore]
    norm_num]
  rw [int64Trunc, if_neg (by norm_num), Int.ceil_intCast]

/-- C4 (amended): the balanced-resource scorer returns a value in
`[0, 100]` for every nonempty requested map with nonnegative requested
and allocatable values, provided `requestedVolumes ≤ allocatableVolumes`
whenever the volume fraction participates; when requestedVolumes exceeds
allocatableVolumes the score can leave the interval (see the
counterexample). -/
theorem balancedResourceScorer_score_bounds
    (requested allocable : List (ResourceName × ℤ)) (iv gate : Bool) (rv av : ℤ)
    (hreq : ∀ p ∈ requested, 0 ≤ p.2) (halloc : ∀ p ∈ allocable, 0 ≤ p.2)
    (hne : requested ≠ []) (hrv : 0 ≤ rv) (hva : rv ≤ av) :
    0 ≤ balancedResourceScorer requested allocable iv gate rv av ∧
      balancedResourceScorer requested allocable iv gate rv av ≤ 100 := by
  rw [balancedResourceScorer]
  cases hcf : scorerFractions requested allocable iv gate rv av with
  | none => norm_num
  | some fractions =>
    rw [scorerFractions, Option.map_eq_some'] at hcf
    obtain ⟨fs, hfs, hfr⟩ := hcf
    have hmem : ∀ f ∈ fractions, 0 ≤ f ∧ f ≤ 1 := by
      intro f hf
      by_cases hb : iv = true ∧ gate = true ∧ 0 < av
      · rw [if_pos hb] at hfr
        subst hfr
        rcases List.mem_append.mp hf with hf1 | hf1
        · exact ⟨collectFractions_mem_nonneg allocable requested hreq halloc fs hfs f hf1,
            (collectFractions_mem_lt_one allocable requested fs hfs f hf1).le⟩
        · rw [List.mem_singleton] at hf1
          subst hf1
          have hav : (0 : ℚ) < (av : ℚ) := by exact_mod_cast hb.2.2
          constructor
          · exact div_nonneg (by exact_mod_cast hrv) hav.le
          · rw [div_le_one hav]
            exact_mod_cast hva
      · rw [if_neg hb] at hfr
        subst hfr
        exact ⟨collectFractions_mem_nonneg allocable requested hreq halloc fs hfs f hf,
          (collectFractions_mem_lt_one allocable requested fs hfs f hf).le⟩
    have hnil : fractions ≠ [] := by
      have hlen : fs.length = requested.length := collectFractions_length allocable requested fs hfs
      have hfsne : fs ≠ [] := by
        intro he
        rw [he] at hlen
        exact hne (List.length_eq_zero.mp hlen.symm)
      by_cases hb : iv = true ∧ gate = true ∧ 0 < av
      · rw [if_pos hb] at hfr
        subst hfr
        simp
      · rw [if_neg hb] at hfr
        subst hfr
        exact hfsne
    have hvarcase : 0 ≤ int64Trunc ((1 - variance fractions) * maxNodeScore) ∧
        int64Trunc ((1 - variance fractions) * maxNodeScore) ≤ 100 := by
      have hv0 := variance_nonneg fractions
      have hv1 := variance_le_one fractions hmem
      apply int64Trunc_nonneg_le_100
      · rw [maxNodeScore]
        nlinarith
      · rw [maxNodeScore]
        nlinarith
    rcases fractions with _ | ⟨a, _ | ⟨b, rest⟩⟩
    · exact absurd rfl hnil
    · exact hvarcase
    · rcases rest with _ | ⟨c, rest2⟩
      · have ha := hmem a (by simp)
        have hb2 := hmem b (by simp)
        have habs : |a - b| ≤ 1 := by
          rw [abs_le]
          constructor <;> nlinarith [ha.1, ha.2, hb2.1, hb2.2]
        have habs0 : 0 ≤ |a - b| := abs_nonneg _
        show 0 ≤ int64Trunc ((1 - |a - b|) * maxNodeScore) ∧
          int64Trunc ((1 - |a - b|) * maxNodeScore) ≤ 100
        apply int64Trunc_nonneg_le_100
        · rw [maxNodeScore]
          nlinarith
        · rw [maxNodeScore]
          nlinarith
      · exact hvarcase

/-- C4 (witness). -/
theorem balancedResourceScorer_score_bounds_witness :
    (∀ p ∈ [(ResourceName.cpu, (1 : ℤ)), (ResourceName.memory, 0)], 0 ≤ p.2) ∧
    (∀ p ∈ [(ResourceName.cpu, (8 : ℤ)), (ResourceName.memory, 5)], 0 ≤ p.2) ∧
    [(ResourceName.cpu, (1 : ℤ)), (ResourceName.memory, 0)] ≠ [] ∧
    (0 : ℤ) ≤ 1 ∧ (1 : ℤ) ≤ 2 ∧
    (0 ≤ balancedResourceScorer [(ResourceName.cpu, 1), (ResourceName.memory, 0)]
        [(ResourceName.cpu, 8), (ResourceName.memory, 5)] true true 1 2 ∧
      balancedResourceScorer [(ResourceName.cpu, 1), (ResourceName.memory, 0)]
        [(ResourceName.cpu, 8), (ResourceName.memory, 5)] true true 1 2 ≤ 100) :=
  ⟨by decide, by decide, by decide, by decide, by decide,
    balancedResourceScorer_score_bounds
      [(ResourceName.cpu, 1), (ResourceName.memory, 0)]
      [(ResourceName.cpu, 8), (ResourceName.memory, 5)] true true 1 2
      (by decide) (by decide) (by decide) (by decide) (by decide)⟩

/-- Evaluation of the fraction-collecting loop on the two-resource
example `(cpu : 1/8, memory : 0/5)`. -/
theorem collectFractions_two_example :
    collectFractions [(ResourceName.cpu, 8), (ResourceName.memory, 5)]
      [(ResourceName.cpu, 1), (ResourceName.memory, 0)] = some [1 / 8, 0] := by
  have hl1 : mapLookup ResourceName.cpu
      [(ResourceName.cpu, (8 : ℤ)), (ResourceName.memory, 5)] = some 8 := by decide
  have hl2 : mapLookup ResourceName.memory
      [(ResourceName.cpu, (8 : ℤ)), (ResourceName.memory, 5)] = some 5 := by decide
  have hf1 : fractionOfCapacity 1 8 = 1 / 8 := by
    rw [fractionOfCapacity, if_neg (by norm_num), if_neg (by norm_num)]
    norm_num
  have hf2 : fractionOfCapacity 0 5 = 0 := by
    rw [fractionOfCapacity, if_pos rfl]
  simp only [collectFractions, hl1, hl2, Option.getD_some, hf1, hf2]
  norm_num

/-! ### Claim C8 -/

/-- C8 (counterexample): with fractions `(1/8, 0)` the real-valued score
is `87.5`; the code's `int64` conversion truncates it to 87, while the
claimed round-to-nearest gives 88. -/
theorem balancedResourceScorer_truncates_not_rounds :
    balancedResourceScorer [(ResourceName.cpu, 1), (ResourceName.memory, 0)]
        [(ResourceName.cpu, 8), (ResourceName.memory, 5)] false false 0 0 = 87 ∧
      specRound ((1 - |fractionOfCapacity 1 8 - fractionOfCapacity 0 5|) * maxNodeScore)
        = 88 := by
  have hcv : fractionOfCapacity 1 8 = 1 / 8 := by
    rw [fractionOfCapacity, if_neg (by norm_num), if_neg (by norm_num)]
    norm_num
  have hmv : fractionOfCapacity 0 5 = 0 := by
    rw [fractionOfCapacity, if_pos rfl]
  have habs : |(1 : ℚ) / 8 - 0| = 1 / 8 := by
    rw [abs_of_nonneg] <;> norm_num
  constructor
  · have h1 : scorerFractions [(ResourceName.cpu, 1), (ResourceName.memory, 0)]
        [(ResourceName.cpu, 8), (ResourceName.memory, 5)] false false 0 0
        = some [1 / 8, 0] := by
      rw [scorerFractions, collectFractions_two_example]
      norm_num
    rw [balancedResourceScorer, h1]
    show int64Trunc ((1 - |(1 : ℚ) / 8 - 0|) * maxNodeScore) = 87
    rw [habs, int64Trunc, maxNodeScore, if_pos (by norm_num)]
    norm_num
  · rw [hcv, hmv, habs, specRound, maxNodeScore]
    norm_num

/-- C8 (amended): when no fraction reaches 1, the scorer computes the
real-valued score and converts it with Go `int64` truncation toward zero
(equivalently `⌊·⌋` here, the value being nonnegative) — not
round-to-nearest: with exactly two fractions `(a, b)` it returns
`⌊(1 − |a − b|)·MaxNodeScore⌋`, and with three or more fractions
`⌊(1 − variance)·MaxNodeScore⌋`. -/
theorem balancedResourceScorer_truncation
    (requested allocable : List (ResourceName × ℤ)) (iv gate : Bool) (rv av : ℤ)
    (fs : List ℚ)
    (hfs : scorerFractions requested allocable iv gate rv av = some fs)
    (hall : ∀ f ∈ fs, 0 ≤ f ∧ f < 1) :
    (∀ a b, fs = [a, b] →
      balancedResourceScorer requested allocable iv gate rv av
        = ⌊(1 - |a - b|) * maxNodeScore⌋) ∧
    (3 ≤ fs.length →
      balancedResourceScorer requested allocable iv gate rv av
        = ⌊(1 - variance fs) * maxNodeScore⌋) := by
  constructor
  · intro a b hab
    subst hab
    rw [balancedResourceScorer, hfs]
    show int64Trunc ((1 - |a - b|) * maxNodeScore) = ⌊(1 - |a - b|) * maxNodeScore⌋
    have ha := hall a (by simp)
    have hb := hall b (by simp)
    have habs : |a - b| ≤ 1 := by
      rw [abs_le]
      constructor <;> nlinarith [ha.1, ha.2, hb.1, hb.2]
    rw [int64Trunc, if_pos]
    rw [maxNodeScore]
    nlinarith
  · intro h3
    rcases fs with _ | ⟨a, fs1⟩
    · norm_num at h3
    rcases fs1 with _ | ⟨b, fs2⟩
    · norm_num at h3
    rcases fs2 with _ | ⟨c, rest⟩
    · norm_num at h3
    rw [balancedResourceScorer, hfs]
    show int64Trunc ((1 - variance (a :: b :: c :: rest)) * maxNodeScore)
      = ⌊(1 - variance (a :: b :: c :: rest)) * maxNodeScore⌋
    have hv1 : variance (a :: b :: c :: rest) ≤ 1 :=
      variance_le_one _ (fun t ht => ⟨(hall t ht).1, (hall t ht).2.le⟩)
    rw [int64Trunc, if_pos]
    rw [maxNodeScore]
    nlinarith

/-- C8 (witness). -/
theorem balancedResourceScorer_truncation_witness :
    scorerFractions [(ResourceName.cpu, 1), (ResourceName.memory, 0)]
        [(ResourceName.cpu, 8), (ResourceName.memory, 5)] false false 0 0
      = some [1 / 8, 0] ∧
    ((∀ a b, ([1 / 8, 0] : List ℚ) = [a, b] →
      balancedResourceScorer [(ResourceName.cpu, 1), (ResourceName.memory, 0)]
          [(ResourceName.cpu, 8), (ResourceName.memory, 5)] false false 0 0
        = ⌊(1 - |a - b|) * maxNodeScore⌋) ∧
    (3 ≤ ([1 / 8, 0] : List ℚ).length →
      balancedResourceScorer [(ResourceName.cpu, 1), (ResourceName.memory, 0)]
          [(ResourceName.cpu, 8), (ResourceName.memory, 5)] false false 0 0
        = ⌊(1 - variance [1 / 8, 0]) * maxNodeScore⌋)) := by
  have h1 : scorerFractions [(ResourceName.cpu, 1), (ResourceName.memory, 0)]
      [(ResourceName.cpu, 8), (ResourceName.memory, 5)] false false 0 0
      = some [1 / 8, 0] := by
    rw [scorerFractions, collectFractions_two_example]
    norm_num
  exact ⟨h1, balancedResourceScorer_truncation
    [(ResourceName.cpu, 1), (ResourceName.memory, 0)]
    [(ResourceName.cpu, 8), (ResourceName.memory, 5)] false false 0 0
    [1 / 8, 0] h1 (by norm_num)⟩

/-! ### Claim C10 -/

/-- C10: with exactly one resource fraction `f`, `0 ≤ f < 1`, and no
volume fraction included, the scorer returns exactly 100: the population
variance of a single value is 0. -/
theorem balancedResourceScorer_single_fraction_full_score
    (requested allocable : List (ResourceName × ℤ)) (iv gate : Bool) (rv av : ℤ) (f : ℚ)
    (hcf : collectFractions allocable requested = some [f])
    (hnv : ¬(iv = true ∧ gate = true ∧ 0 < av))
    (hf0 : 0 ≤ f) (hf1 : f < 1) :
    balancedResourceScorer requested allocable iv gate rv av = 100 := by
  have hfs : scorerFractions requested allocable iv gate rv av = some [f] := by
    rw [scorerFractions, hcf, Option.map_some', if_neg hnv]
  rw [balancedResourceScorer, hfs]
  show int64Trunc ((1 - variance [f]) * maxNodeScore) = 100
  have hv : variance [f] = 0 := by
    rw [variance, meanOf]
    norm_num
  rw [hv, show ((1 : ℚ) - 0) * maxNodeScore = ((100 : ℤ) : ℚ) from by
    rw [maxNodeScore]
    norm_num]
  rw [int64Trunc, if_pos (by norm_num), Int.floor_intCast]

/-- C10 (witness). -/
theorem balancedResourceScorer_single_fraction_full_score_witness :
    collectFractions [(ResourceName.cpu, 2)] [(ResourceName.cpu, 1)] = some [1 / 2] ∧
    ¬(false = true ∧ false = true ∧ (0 : ℤ) < 0) ∧
    (0 : ℚ) ≤ 1 / 2 ∧ (1 : ℚ) / 2 < 1 ∧
    balancedResourceScorer [(ResourceName.cpu, 1)] [(ResourceName.cpu, 2)] false false 0 0
      = 100 := by
  have hcf : collectFractions [(ResourceName.cpu, 2)] [(ResourceName.cpu, 1)]
      = some [1 / 2] := by
    have hl : mapLookup ResourceName.cpu [(ResourceName.cpu, (2 : ℤ))] = some 2 := by decide
    have hf : fractionOfCapacity 1 2 = 1 / 2 := by
      rw [fractionOfCapacity, if_neg (by norm_num), if_neg (by norm_num)]
      norm_num
    simp only [collectFractions, hl, Option.getD_some, hf]
    norm_num
  exact ⟨hcf, by decide, by norm_num, by norm_num,
    balancedResourceScorer_single_fraction_full_score
      [(ResourceName.cpu, 1)] [(ResourceName.cpu, 2)] false false 0 0 (1 / 2)
      hcf (by decide) (by norm_num) (by norm_num)⟩

/-! ### Claim C6 -/

/-- C6 (code evaluated at the failing input): deleting a container that
has no CPU-set assignment does not return normally — the source reaches
`panic("manage this error")` (modelled by `none`) instead of being a
no-op, for any state, here a freshly initialised one with an unrelated
assignment present. -/
theorem rtDelete_unknown_container_is_not_noop :
    rtDelete (newRtState [("other-container", [0])] [0, 1, 2, 3]) "unknown-container"
      = none := by
  have h : mapLookup "unknown-container"
      (newRtState [("other-container", [(0 : ℤ)])] [0, 1, 2, 3]).assignments = none := by
    decide
  rw [rtDelete, h]

/-! ### Claim C9 -/

/-- C9 (counterexample): a failing `CpuManager.RemoveContainer` makes
`PostStopContainer` return that error instead of success — collaborator
errors are propagated, not merely logged. -/
theorem postStopContainer_propagates_error_example :
    postStopContainer true true (GoResult.fail "remove failed") GoResult.ok
        = GoResult.fail "remove failed" ∧
      postStopContainer true true (GoResult.fail "remove failed") GoResult.ok
        ≠ GoResult.ok := by
  constructor
  · rfl
  · intro h
    exact absurd h (by decide)

/-- C9 (amended): `PostStopContainer` invokes the enabled collaborators in
order (CPU manager first; the topology manager only when the CPU manager
call did not fail) and propagates the first error: it returns success iff
every enabled collaborator call succeeds. -/
theorem postStopContainer_ok_iff (cpuEnabled topoEnabled : Bool)
    (cpuRes topoRes : GoResult) :
    postStopContainer cpuEnabled topoEnabled cpuRes topoRes = GoResult.ok ↔
      ((cpuEnabled = true → cpuRes = GoResult.ok) ∧
        (topoEnabled = true → topoRes = GoResult.ok)) := by
  cases cpuEnabled <;> cases topoEnabled <;> cases cpuRes <;> cases topoRes <;>
    simp [postStopContainer]

/-! ### Worst-fit lemmas -/

theorem wfFilter_length (alloc u : ℚ) (snap : List (ℤ × ℚ)) :
    (wfFilter alloc u snap).length
      = (snap.filter (fun p => decide (p.2 + u < alloc))).length := by
  induction snap with
  | nil => rfl
  | cons p t ih =>
    have hiff : (0 < alloc - p.2 - u) ↔ (p.2 + u < alloc) := by
      constructor <;> intro h <;> linarith
    by_cases h : 0 < alloc - p.2 - u
    · rw [wfFilter] at ih ⊢
      rw [List.filterMap_cons, if_pos h, List.filter_cons, if_pos (by simp [hiff.mp h])]
      rw [List.length_cons, List.length_cons, ih]
    · rw [wfFilter] at ih ⊢
      rw [List.filterMap_cons, if_neg h, List.filter_cons,
        if_neg (by simpa using fun hc => h (hiff.mpr hc))]
      exact ih

theorem mem_wfFilter (alloc u : ℚ) (snap : List (ℤ × ℚ)) (e : ScoredCpu) :
    e ∈ wfFilter alloc u snap ↔
      ∃ c v, (c, v) ∈ snap ∧ 0 < alloc - v - u ∧ e = ⟨c, alloc - v - u⟩ := by
  rw [wfFilter, List.mem_filterMap]
  constructor
  · rintro ⟨⟨c, v⟩, hmem, hf⟩
    by_cases h : 0 < alloc - v - u
    · rw [if_pos h] at hf
      exact ⟨c, v, hmem, h, (Option.some_injective _ hf).symm⟩
    · rw [if_neg h] at hf
      exact absurd hf (Option.noConfusion)
  · rintro ⟨c, v, hmem, h, rfl⟩
    exact ⟨(c, v), hmem, by rw [if_pos h]⟩

theorem wfFilter_cpus_sublist (alloc u : ℚ) (snap : List (ℤ × ℚ)) :
    List.Sublist ((wfFilter alloc u snap).map ScoredCpu.cpu) (snap.map Prod.fst) := by
  induction snap with
  | nil => simp [wfFilter]
  | cons p t ih =>
    rw [wfFilter, List.filterMap_cons]
    by_cases h : 0 < alloc - p.2 - u
    · rw [if_pos h]
      rw [wfFilter] at ih
      simpa using List.Sublist.cons₂ p.1 ih
    · rw [if_neg h]
      rw [wfFilter] at ih
      simpa using List.Sublist.cons p.1 ih

theorem value_eq_of_nodup_keys {κ α : Type} [DecidableEq κ] {l : List (κ × α)} {k : κ}
    {a b : α} (hnd : (l.map Prod.fst).Nodup) (ha : (k, a) ∈ l) (hb : (k, b) ∈ l) :
    a = b := by
  have h1 := mapLookup_eq_some_of_mem hnd ha
  have h2 := mapLookup_eq_some_of_mem hnd hb
  rw [h1] at h2
  exact Option.some_injective _ h2

/-- Descending score with ties in ascending CPU-id order: the order the
selection would have to respect for the spec's tie-breaking claim. -/
def wfLex (a b : ScoredCpu) : Prop :=
  b.score < a.score ∨ (a.score = b.score ∧ a.cpu < b.cpu)

theorem pairwise_wfLex_orderedInsert (x : ScoredCpu) (l : List ScoredCpu)
    (hl : l.Pairwise wfLex) (hx : ∀ y ∈ l, x.cpu < y.cpu) :
    (List.orderedInsert wfRel x l).Pairwise wfLex := by
  induction l with
  | nil => simp
  | cons y t ih =>
    rw [List.pairwise_cons] at hl
    rw [List.orderedInsert]
    by_cases h : wfRel x y
    · rw [if_pos h]
      rw [List.pairwise_cons]
      refine ⟨?_, List.pairwise_cons.mpr hl⟩
      intro z hz
      have hzx : z.score ≤ x.score := by
        rcases List.mem_cons.mp hz with rfl | hz2
        · exact h
        · rcases hl.1 z hz2 with h2 | h2
          · exact le_trans h2.le h
          · exact le_trans h2.1.ge h
      rcases lt_or_eq_of_le hzx with hlt | heq
      · exact Or.inl hlt
      · exact Or.inr ⟨heq.symm, hx z hz⟩
    · rw [if_neg h]
      rw [List.pairwise_cons]
      constructor
      · intro z hz
        rcases (List.mem_orderedInsert wfRel).mp hz with rfl | hz2
        · exact Or.inl (lt_of_not_le h)
        · exact hl.1 z hz2
      · exact ih hl.2 (fun y2 hy2 => hx y2 (List.mem_cons_of_mem _ hy2))

theorem pairwise_wfLex_insertionSort (l : List ScoredCpu)
    (h : l.Pairwise (fun a b => a.cpu < b.cpu)) :
    (List.insertionSort wfRel l).Pairwise wfLex := by
  induction l with
  | nil => simp
  | cons x t ih =>
    rw [List.pairwise_cons] at h
    rw [List.insertionSort]
    apply pairwise_wfLex_orderedInsert x _ (ih h.2)
    intro y hy
    exact h.1 y ((List.mem_insertionSort wfRel).mp hy)

/-! ### Claim C1 -/

/-- C1: when at least `cpuCount` candidates exist, `worstFit` returns
exactly `cpuCount` distinct CPUs, all drawn from the candidates
(`util + u < allocableRtUtil`), and every selected CPU has residual
headroom `allocableRtUtil − util − u` at least that of every unselected
candidate. -/
theorem worstFit_selects_largest_headroom
    (alloc u : ℚ) (snap : List (ℤ × ℚ)) (k : ℤ)
    (hu : 0 < u) (hk : 0 ≤ k)
    (hnd : (snap.map Prod.fst).Nodup)
    (hcand : k ≤ ((snap.filter (fun p => decide (p.2 + u < alloc))).length : ℤ)) :
    ((worstFit alloc snap u k).length : ℤ) = k ∧
    (worstFit alloc snap u k).Nodup ∧
    (∀ c ∈ worstFit alloc snap u k, ∃ v, (c, v) ∈ snap ∧ v + u < alloc) ∧
    (∀ c1 v1 c2 v2, (c1, v1) ∈ snap → v1 + u < alloc →
      c1 ∉ worstFit alloc snap u k →
      (c2, v2) ∈ snap → c2 ∈ worstFit alloc snap u k →
      alloc - v1 - u ≤ alloc - v2 - u) := by
  have hflen : ((wfFilter alloc u snap).length : ℤ)
      = ((snap.filter (fun p => decide (p.2 + u < alloc))).length : ℤ) := by
    exact_mod_cast congrArg Nat.cast (wfFilter_length alloc u snap)
  have hnlt : ¬ ((wfFilter alloc u snap).length : ℤ) < k :=
    not_lt.mpr (hflen ▸ hcand)
  have hperm : (List.insertionSort wfRel (wfFilter alloc u snap)).Perm
      (wfFilter alloc u snap) := List.perm_insertionSort wfRel _
  have hWF : worstFit alloc snap u k
      = ((List.insertionSort wfRel (wfFilter alloc u snap)).take k.toNat).map
          ScoredCpu.cpu := by
    rw [worstFit, if_neg hnlt]
  have hLlen : k.toNat ≤ (List.insertionSort wfRel (wfFilter alloc u snap)).length := by
    rw [hperm.length_eq]
    rw [← hflen] at hcand
    exact Int.toNat_le.mpr hcand
  refine ⟨?_, ?_, ?_, ?_⟩
  · rw [hWF, List.length_map, List.length_take, min_eq_left hLlen,
      Int.toNat_of_nonneg hk]
  · have h2 : ((wfFilter alloc u snap).map ScoredCpu.cpu).Nodup :=
      List.Sublist.nodup (wfFilter_cpus_sublist alloc u snap) hnd
    have h1 : ((List.insertionSort wfRel (wfFilter alloc u snap)).map ScoredCpu.cpu).Nodup :=
      ((hperm.map ScoredCpu.cpu).nodup_iff).mpr h2
    rw [hWF, List.map_take]
    exact List.Sublist.nodup (List.take_sublist _ _) h1
  · intro c hc
    rw [hWF] at hc
    rcases List.mem_map.mp hc with ⟨e, he, rfl⟩
    have heL := List.mem_of_mem_take he
    rcases (mem_wfFilter alloc u snap e).mp (hperm.mem_iff.mp heL) with
      ⟨c', v, hmem, hpos, rfl⟩
    exact ⟨v, hmem, by linarith⟩
  · intro c1 v1 c2 v2 h1 hcand1 hnot h2 hsel
    rw [hWF] at hnot hsel
    have he1F : (⟨c1, alloc - v1 - u⟩ : ScoredCpu) ∈ wfFilter alloc u snap :=
      (mem_wfFilter alloc u snap _).mpr ⟨c1, v1, h1, by linarith, rfl⟩
    have he1L : (⟨c1, alloc - v1 - u⟩ : ScoredCpu)
        ∈ List.insertionSort wfRel (wfFilter alloc u snap) := hperm.mem_iff.mpr he1F
    have hsorted : List.Pairwise wfRel (List.insertionSort wfRel (wfFilter alloc u snap)) :=
      List.sorted_insertionSort wfRel _
    have hsplit := List.take_append_drop k.toNat
      (List.insertionSort wfRel (wfFilter alloc u snap))
    rw [← hsplit] at hsorted
    obtain ⟨-, -, hcross⟩ := List.pairwise_append.mp hsorted
    rcases List.mem_append.mp (by rw [hsplit]; exact he1L) with htake | hdrop
    · exact absurd (List.mem_map.mpr ⟨_, htake, rfl⟩) hnot
    · rcases List.mem_map.mp hsel with ⟨e2, he2take, he2cpu⟩
      have he2L := List.mem_of_mem_take he2take
      rcases (mem_wfFilter alloc u snap e2).mp (hperm.mem_iff.mp he2L) with
        ⟨c', v', hmem', hpos', he2eq⟩
      have hc2 : c' = c2 := by
        rw [he2eq] at he2cpu
        exact he2cpu
      subst hc2
      have hv : v' = v2 := value_eq_of_nodup_keys hnd hmem' h2
      subst hv
      have hrel := hcross e2 he2take _ hdrop
      rw [he2eq] at hrel
      exact hrel

/-- C1 (witness). -/
theorem worstFit_selects_largest_headroom_witness :
    (0 : ℚ) < 1 / 2 ∧ (0 : ℤ) ≤ 1 ∧
    (([((0 : ℤ), (0 : ℚ))].map Prod.fst).Nodup) ∧
    (1 : ℤ) ≤ (([((0 : ℤ), (0 : ℚ))].filter
      (fun p => decide (p.2 + 1 / 2 < 1))).length : ℤ) ∧
    (((worstFit 1 [((0 : ℤ), (0 : ℚ))] (1 / 2) 1).length : ℤ) = 1 ∧
      (worstFit 1 [((0 : ℤ), (0 : ℚ))] (1 / 2) 1).Nodup ∧
      (∀ c ∈ worstFit 1 [((0 : ℤ), (0 : ℚ))] (1 / 2) 1,
        ∃ v, (c, v) ∈ [((0 : ℤ), (0 : ℚ))] ∧ v + 1 / 2 < 1) ∧
      (∀ c1 v1 c2 v2, (c1, v1) ∈ [((0 : ℤ), (0 : ℚ))] → v1 + 1 / 2 < 1 →
        c1 ∉ worstFit 1 [((0 : ℤ), (0 : ℚ))] (1 / 2) 1 →
        (c2, v2) ∈ [((0 : ℤ), (0 : ℚ))] →
        c2 ∈ worstFit 1 [((0 : ℤ), (0 : ℚ))] (1 / 2) 1 →
        1 - v1 - 1 / 2 ≤ 1 - v2 - 1 / 2)) :=
  ⟨by norm_num, by norm_num, by decide, by norm_num [List.filter_cons],
    worstFit_selects_largest_headroom 1 (1 / 2) [((0 : ℤ), (0 : ℚ))] 1
      (by norm_num) (by norm_num) (by decide) (by norm_num [List.filter_cons])⟩

/-! ### Claim C7 -/

/-- C7 (counterexample): two enumerations of the same `cpuToUtil` map
content `{0 ↦ 0, 1 ↦ 0}` make `worstFit` return different CPU lists, and
the first run selects CPU 1 although CPU 0 has equal residual headroom —
the stable sort breaks ties by the (randomised Go map) enumeration order,
not by ascending CPU id. -/
theorem worstFit_tie_depends_on_enumeration :
    worstFit 2 [(1, 0), (0, 0)] 1 1 = [1] ∧
      worstFit 2 [(0, 0), (1, 0)] 1 1 = [0] := by
  have hf1 : wfFilter 2 1 [(1, 0), (0, 0)] = [⟨1, 1⟩, ⟨0, 1⟩] := by
    rw [wfFilter]
    norm_num [List.filterMap_cons]
  have hf2 : wfFilter 2 1 [(0, 0), (1, 0)] = [⟨0, 1⟩, ⟨1, 1⟩] := by
    rw [wfFilter]
    norm_num [List.filterMap_cons]
  constructor
  · rw [worstFit, hf1]
    norm_num [List.insertionSort, List.orderedInsert, wfRel]
  · rw [worstFit, hf2]
    norm_num [List.insertionSort, List.orderedInsert, wfRel]

/-- C7 (amended): the worst-fit selection is a deterministic function of
the ordered snapshot, and ties break by ascending CPU id provided the
snapshot is enumerated in ascending CPU-id order: among equal-headroom
candidates, if the higher-numbered CPU is selected then so is the
lower-numbered one. -/
theorem worstFit_tie_break_ascending_snapshot
    (alloc u : ℚ) (snap : List (ℤ × ℚ)) (k : ℤ)
    (hasc : (snap.map Prod.fst).Pairwise (fun a b => a < b))
    (c1 : ℤ) (v1 : ℚ) (c2 : ℤ) (v2 : ℚ)
    (h1 : (c1, v1) ∈ snap) (h2 : (c2, v2) ∈ snap)
    (hc1 : v1 + u < alloc) (hc2 : v2 + u < alloc)
    (heq : alloc - v1 - u = alloc - v2 - u) (hlt : c1 < c2)
    (hsel : c2 ∈ worstFit alloc snap u k) :
    c1 ∈ worstFit alloc snap u k := by
  have hnd : (snap.map Prod.fst).Nodup := hasc.imp (fun h => ne_of_lt h)
  by_cases hshort : ((wfFilter alloc u snap).length : ℤ) < k
  · rw [worstFit, if_pos hshort] at hsel
    simp at hsel
  · have hWF : worstFit alloc snap u k
        = ((List.insertionSort wfRel (wfFilter alloc u snap)).take k.toNat).map
            ScoredCpu.cpu := by
      rw [worstFit, if_neg hshort]
    rw [hWF] at hsel ⊢
    by_contra hnot
    have he1F : (⟨c1, alloc - v1 - u⟩ : ScoredCpu) ∈ wfFilter alloc u snap :=
      (mem_wfFilter alloc u snap _).mpr ⟨c1, v1, h1, by linarith, rfl⟩
    have hperm := List.perm_insertionSort wfRel (wfFilter alloc u snap)
    have he1L := hperm.mem_iff.mpr he1F
    have hsplit := List.take_append_drop k.toNat
      (List.insertionSort wfRel (wfFilter alloc u snap))
    have hpw : (wfFilter alloc u snap).Pairwise (fun a b => a.cpu < b.cpu) := by
      have hsub := wfFilter_cpus_sublist alloc u snap
      exact (List.pairwise_map).mp (hasc.sublist hsub)
    have hlex := pairwise_wfLex_insertionSort _ hpw
    rw [← hsplit] at hlex
    obtain ⟨-, -, hcross⟩ := List.pairwise_append.mp hlex
    rcases List.mem_append.mp (by rw [hsplit]; exact he1L) with htake | hdrop
    · exact hnot (List.mem_map.mpr ⟨_, htake, rfl⟩)
    · rcases List.mem_map.mp hsel with ⟨e2, he2take, he2cpu⟩
      have he2L := List.mem_of_mem_take he2take
      rcases (mem_wfFilter alloc u snap e2).mp (hperm.mem_iff.mp he2L) with
        ⟨c', v', hmem', hpos', he2eq⟩
      have hc2e : c' = c2 := by
        rw [he2eq] at he2cpu
        exact he2cpu
      rw [hc2e] at hmem' he2eq
      have hv : v' = v2 := value_eq_of_nodup_keys hnd hmem' h2
      rw [hv] at he2eq
      have hrel := hcross e2 he2take _ hdrop
      rw [he2eq] at hrel
      rcases hrel with hsc | ⟨-, hcp⟩
      · have h5 : alloc - v1 - u < alloc - v2 - u := hsc
        rw [heq] at h5
        exact absurd h5 (lt_irrefl _)
      · have h5 : c2 < c1 := hcp
        exact absurd h5 (not_lt.mpr hlt.le)

/-- C7 (witness). -/
theorem worstFit_tie_break_ascending_snapshot_witness :
    (([((0 : ℤ), (0 : ℚ)), (1, 0)].map Prod.fst).Pairwise (fun a b => a < b)) ∧
    ((0 : ℤ), (0 : ℚ)) ∈ [((0 : ℤ), (0 : ℚ)), (1, 0)] ∧
    ((1 : ℤ), (0 : ℚ)) ∈ [((0 : ℤ), (0 : ℚ)), (1, 0)] ∧
    (0 : ℚ) + 1 < 2 ∧
    (2 : ℚ) - 0 - 1 = 2 - 0 - 1 ∧ (0 : ℤ) < 1 ∧
    (1 : ℤ) ∈ worstFit 2 [((0 : ℤ), (0 : ℚ)), (1, 0)] 1 2 ∧
    (0 : ℤ) ∈ worstFit 2 [((0 : ℤ), (0 : ℚ)), (1, 0)] 1 2 := by
  have heval : worstFit 2 [((0 : ℤ), (0 : ℚ)), (1, 0)] 1 2 = [0, 1] := by
    have hf : wfFilter 2 1 [((0 : ℤ), (0 : ℚ)), (1, 0)] = [⟨0, 1⟩, ⟨1, 1⟩] := by
      rw [wfFilter]
      norm_num [List.filterMap_cons]
    rw [worstFit, hf]
    norm_num [List.insertionSort, List.orderedInsert, wfRel]
  refine ⟨by decide, by decide, by decide, by norm_num, rfl, by decide,
    by rw [heval]; decide, ?_⟩
  exact worstFit_tie_break_ascending_snapshot 2 1 [((0 : ℤ), (0 : ℚ)), (1, 0)] 2
    (by decide) 0 0 1 0 (by decide) (by decide) (by norm_num) (by norm_num) rfl
    (by decide) (by rw [heval]; decide)

/-! ### Claim C2 -/

/-- A state in which container `"c"` already holds an RT assignment on
CPU 0 with utilisation 1, and CPU 0 is fully utilised. -/
def rtStateReAdd : RtStateM :=
  { assignments := [("c", [0])]
    containerToUtil := [("c", 1)]
    cpuToUtil := [(0, 1)] }

/-- C2 (counterexample): with `u = 1 > 0` and zero CPUs satisfying
`util + u < allocableRtUtil = 1`, `AddContainer` on the already-assigned
container `"c"` returns success (idempotent re-add), not the `DoesNotFit`
error the claim requires for every state. -/
theorem addContainer_readd_skips_doesNotFit :
    addContainer 1 rtStateReAdd 100 100 1 "c" = some (GoResult.ok, rtStateReAdd) ∧
    0 < reqUtilOf 100 100 ∧
    ((rtStateReAdd.cpuToUtil.filter
      (fun p => decide (p.2 + reqUtilOf 100 100 < 1))).length : ℤ) < 1 := by
  have hru : reqUtilOf 100 100 = 1 := by
    rw [reqUtilOf, if_pos (by norm_num)]
    norm_num
  refine ⟨?_, ?_, ?_⟩
  · have hget : getRtCPUSetAndUtilOfContainer rtStateReAdd "c" = some ([0], 1) := rfl
    simp only [addContainer, hru, hget]
    norm_num
  · rw [hru]
    norm_num
  · show ((List.filter _ [((0 : ℤ), (1 : ℚ))]).length : ℤ) < 1
    rw [List.filter_cons]
    rw [if_neg (by rw [hru]; norm_num)]
    norm_num

/-- C2 (amended): for every state in which the container has no existing
RT assignment, if `u > 0` and fewer than `cpuCount` CPUs of the
`cpuToUtil` map satisfy `util + u < allocableRtUtil`, then `AddContainer`
returns the `DoesNotFit` error and the state — assignments, per-container
utilisations and the cpuUtil map — is returned exactly unchanged. -/
theorem addContainer_doesNotFit_state_unchanged
    (alloc : ℚ) (s : RtStateM) (reqPeriod reqRuntime reqCpus : ℤ) (cid : String)
    (hu : 0 < reqUtilOf reqPeriod reqRuntime)
    (hnew : getRtCPUSetAndUtilOfContainer s cid = none)
    (hfew : ((s.cpuToUtil.filter
      (fun p => decide (p.2 + reqUtilOf reqPeriod reqRuntime < alloc))).length : ℤ)
        < reqCpus) :
    addContainer alloc s reqPeriod reqRuntime reqCpus cid
      = some (GoResult.fail "container does not fit", s) := by
  have h0 : ¬ reqUtilOf reqPeriod reqRuntime = 0 := ne_of_gt hu
  have hlen : ((wfFilter alloc (reqUtilOf reqPeriod reqRuntime) (cpuToUtilMapOf s)).length : ℤ)
      < reqCpus := by
    rw [wfFilter_length, cpuToUtilMapOf]
    exact hfew
  have hws : worstFit alloc (cpuToUtilMapOf s) (reqUtilOf reqPeriod reqRuntime) reqCpus
      = [] := by
    rw [worstFit, if_pos hlen]
  have hpos : (0 : ℤ) < reqCpus := by
    have hnn : (0 : ℤ) ≤ ((s.cpuToUtil.filter
        (fun p => decide (p.2 + reqUtilOf reqPeriod reqRuntime < alloc))).length : ℤ) := by
      exact_mod_cast Nat.zero_le _
    omega
  simp only [addContainer, if_neg h0, hnew, Option.isSome_none, Bool.false_eq_true,
    if_false, hws, List.length_nil, Nat.cast_zero, if_pos hpos]

/-- A state with no assignments and CPU 0 fully utilised. -/
def rtStateFull : RtStateM :=
  { assignments := []
    containerToUtil := []
    cpuToUtil := [(0, 1)] }

/-- C2 (witness). -/
theorem addContainer_doesNotFit_state_unchanged_witness :
    0 < reqUtilOf 100 100 ∧
    getRtCPUSetAndUtilOfContainer rtStateFull "c1" = none ∧
    ((rtStateFull.cpuToUtil.filter
      (fun p => decide (p.2 + reqUtilOf 100 100 < 1))).length : ℤ) < 1 ∧
    addContainer 1 rtStateFull 100 100 1 "c1"
      = some (GoResult.fail "container does not fit", rtStateFull) := by
  have hru : reqUtilOf 100 100 = 1 := by
    rw [reqUtilOf, if_pos (by norm_num)]
    norm_num
  have h1 : 0 < reqUtilOf 100 100 := by
    rw [hru]
    norm_num
  have h2 : getRtCPUSetAndUtilOfContainer rtStateFull "c1" = none := rfl
  have h3 : ((rtStateFull.cpuToUtil.filter
      (fun p => decide (p.2 + reqUtilOf 100 100 < 1))).length : ℤ) < 1 := by
    show ((List.filter _ [((0 : ℤ), (1 : ℚ))]).length : ℤ) < 1
    rw [List.filter_cons, if_neg (by rw [hru]; norm_num)]
    norm_num
  exact ⟨h1, h2, h3, addContainer_doesNotFit_state_unchanged 1 rtStateFull 100 100 1 "c1" h1 h2 h3⟩

/-! ### QoS lemmas -/

theorem qosStep_keys_nodup (a : List (ResourceName × ℚ)) (p : ResourceName × ℚ)
    (h : (a.map Prod.fst).Nodup) : ((qosStep a p).map Prod.fst).Nodup := by
  by_cases hc : isSupportedQoSComputeResource p.1 = true ∧ 0 < p.2
  · cases hl : mapLookup p.1 a with
    | none =>
      simp only [qosStep, if_pos hc, hl]
      rw [List.map_append, List.nodup_append]
      refine ⟨h, by simp, ?_⟩
      intro x hx hx2
      simp only [List.map_cons, List.map_nil, List.mem_singleton] at hx2
      subst hx2
      exact (mapLookup_eq_none_iff p.1 a).mp hl hx
    | some old =>
      simp only [qosStep, if_pos hc, hl]
      exact keys_nodup_mapInsert _ _ _ h
  · simp only [qosStep, if_neg hc]
    exact h

theorem qosAccumulate_keys_nodup (rl : List (ResourceName × ℚ)) :
    ∀ acc, (acc.map Prod.fst).Nodup → ((qosAccumulate acc rl).map Prod.fst).Nodup := by
  induction rl with
  | nil =>
    intro acc h
    exact h
  | cons p t ih =>
    intro acc h
    rw [qosAccumulate, List.foldl_cons]
    exact ih _ (qosStep_keys_nodup acc p h)

theorem qosAggregate_keys_nodup (cs : List ContainerM)
    (f : ContainerM → List (ResourceName × ℚ)) :
    ∀ acc, (acc.map Prod.fst).Nodup →
      ((cs.foldl (fun a c => qosAccumulate a (f c)) acc).map Prod.fst).Nodup := by
  induction cs with
  | nil =>
    intro acc h
    exact h
  | cons c t ih =>
    intro acc h
    rw [List.foldl_cons]
    exact ih _ (qosAccumulate_keys_nodup (f c) acc h)

theorem podRequests_keys_nodup (pod : PodM) : ((podRequests pod).map Prod.fst).Nodup :=
  qosAggregate_keys_nodup (allContainersOf pod) (fun c => c.requests) [] (by simp)

theorem podLimits_keys_nodup (pod : PodM) : ((podLimits pod).map Prod.fst).Nodup :=
  qosAggregate_keys_nodup (allContainersOf pod) (fun c => c.limits) [] (by simp)

theorem mapLookup_congr_of_checks {κ α : Type} [DecidableEq κ] (R L : List (κ × α))
    (hndR : (R.map Prod.fst).Nodup) (hndL : (L.map Prod.fst).Nodup) :
    ((∀ p ∈ R, mapLookup p.1 L = some p.2) ∧ R.length = L.length) ↔
      (∀ n, mapLookup n R = mapLookup n L) := by
  constructor
  · rintro ⟨hall, hlen⟩ n
    cases hR : mapLookup n R with
    | some v =>
      exact (hall (n, v) (mem_of_mapLookup_eq_some hR)).symm
    | none =>
      have hsub : R.map Prod.fst ⊆ L.map Prod.fst := by
        intro k hk
        rcases List.mem_map.mp hk with ⟨p, hp, rfl⟩
        exact List.mem_map.mpr ⟨(p.1, p.2), mem_of_mapLookup_eq_some (hall p hp), rfl⟩
      have hsp : (R.map Prod.fst).Subperm (L.map Prod.fst) :=
        List.subperm_of_subset hndR hsub
      have hperm : (R.map Prod.fst).Perm (L.map Prod.fst) :=
        hsp.perm_of_length_le (by rw [List.length_map, List.length_map, hlen])
      have hnotin : n ∉ R.map Prod.fst := (mapLookup_eq_none_iff n R).mp hR
      have hnotinL : n ∉ L.map Prod.fst := fun hmem => hnotin (hperm.mem_iff.mpr hmem)
      rw [(mapLookup_eq_none_iff n L).mpr hnotinL]
  · intro hsame
    constructor
    · intro p hp
      rw [← hsame p.1]
      exact mapLookup_eq_some_of_mem hndR hp
    · have hperm : (R.map Prod.fst).Perm (L.map Prod.fst) := by
        rw [List.perm_ext_iff_of_nodup hndR hndL]
        intro a
        constructor
        · intro ha
          by_contra hnin
          have hLnone : mapLookup a L = none := (mapLookup_eq_none_iff a L).mpr hnin
          rw [← hsame a] at hLnone
          exact ((mapLookup_eq_none_iff a R).mp hLnone) ha
        · intro ha
          by_contra hnin
          have hRnone : mapLookup a R = none := (mapLookup_eq_none_iff a R).mpr hnin
          rw [hsame a] at hRnone
          exact ((mapLookup_eq_none_iff a L).mp hRnone) ha
      have hl := hperm.length_eq
      rwa [List.length_map, List.length_map] at hl

/-! ### Claim C5 -/

/-- C5: the classifier returns exactly one class, characterised by:
BestEffort iff both aggregates of positive supported requests and limits
are empty; otherwise Guaranteed iff every container's positive limits
contain both cpu and memory or contain rt-runtime AND the requests
aggregate has exactly the same keys and per-key quantities as the limits
aggregate; otherwise Burstable. -/
theorem getPodQOS_characterisation (pod : PodM) :
    (getPodQOS pod = PodQOSClass.bestEffort ↔
      podRequests pod = [] ∧ podLimits pod = []) ∧
    (getPodQOS pod = PodQOSClass.guaranteed ↔
      (¬(podRequests pod = [] ∧ podLimits pod = []) ∧
        (∀ c ∈ allContainersOf pod, limitsCompleteContainer c = true) ∧
        (∀ n, mapLookup n (podRequests pod) = mapLookup n (podLimits pod)))) ∧
    (getPodQOS pod = PodQOSClass.burstable ↔
      (¬(podRequests pod = [] ∧ podLimits pod = []) ∧
        ¬((∀ c ∈ allContainersOf pod, limitsCompleteContainer c = true) ∧
          (∀ n, mapLookup n (podRequests pod) = mapLookup n (podLimits pod))))) := by
  have hiff := mapLookup_congr_of_checks (podRequests pod) (podLimits pod)
    (podRequests_keys_nodup pod) (podLimits_keys_nodup pod)
  have hallc : ((allContainersOf pod).all limitsCompleteContainer = true) ↔
      (∀ c ∈ allContainersOf pod, limitsCompleteContainer c = true) :=
    List.all_eq_true
  by_cases hbe : podRequests pod = [] ∧ podLimits pod = []
  · have hq : getPodQOS pod = PodQOSClass.bestEffort := by
      simp only [getPodQOS]
      rw [if_pos hbe]
    refine ⟨?_, ?_, ?_⟩
    · simp [hq, hbe]
    · rw [hq]
      constructor
      · intro h
        exact absurd h (by simp)
      · rintro ⟨hne, -⟩
        exact absurd hbe hne
    · rw [hq]
      constructor
      · intro h
        exact absurd h (by simp)
      · rintro ⟨hne, -⟩
        exact absurd hbe hne
  · by_cases hg : (allContainersOf pod).all limitsCompleteContainer = true ∧
        (∀ p ∈ podRequests pod, mapLookup p.1 (podLimits pod) = some p.2) ∧
        (podRequests pod).length = (podLimits pod).length
    · have hq : getPodQOS pod = PodQOSClass.guaranteed := by
        simp only [getPodQOS]
        rw [if_neg hbe, if_pos hg]
      refine ⟨?_, ?_, ?_⟩
      · rw [hq]
        constructor
        · intro h
          exact absurd h (by simp)
        · intro h
          exact absurd h hbe
      · rw [hq]
        constructor
        · intro _
          exact ⟨hbe, hallc.mp hg.1, hiff.mp hg.2⟩
        · intro _
          rfl
      · rw [hq]
        constructor
        · intro h
          exact absurd h (by simp)
        · rintro ⟨-, hno⟩
          exact absurd ⟨hallc.mp hg.1, hiff.mp hg.2⟩ hno
    · have hq : getPodQOS pod = PodQOSClass.burstable := by
        simp only [getPodQOS]
        rw [if_neg hbe, if_neg hg]
      refine ⟨?_, ?_, ?_⟩
      · rw [hq]
        constructor
        · intro h
          exact absurd h (by simp)
        · intro h
          exact absurd h hbe
      · rw [hq]
        constructor
        · intro h
          exact absurd h (by simp)
        · rintro ⟨-, hcomplete, hsame⟩
          exact absurd ⟨hallc.mpr hcomplete, hiff.mpr hsame⟩ hg
      · rw [hq]
        constructor
        · intro _
          refine ⟨hbe, ?_⟩
          rintro ⟨hcomplete, hsame⟩
          exact hg ⟨hallc.mpr hcomplete, hiff.mpr hsame⟩
        · intro _
          rfl

/-! ### RtState lemmas -/

theorem mapRead_mapInsert {κ : Type} [DecidableEq κ] (m : List (κ × ℚ)) (k k1 : κ) (v : ℚ) :
    mapRead (mapInsert k v m) k1 = if k1 = k then v else mapRead m k1 := by
  rw [mapRead, mapRead, mapLookup_mapInsert]
  by_cases h : k1 = k <;> simp [h]

theorem mapRead_mapErase_ne {κ : Type} [DecidableEq κ] (m : List (κ × ℚ)) (k k1 : κ)
    (h : k1 ≠ k) : mapRead (mapErase k m) k1 = mapRead m k1 := by
  rw [mapRead, mapRead, mapLookup_mapErase_ne _ _ _ h]

theorem mapRead_nonneg {κ : Type} [DecidableEq κ] (m : List (κ × ℚ)) (k : κ)
    (h : ∀ p ∈ m, 0 ≤ p.2) : 0 ≤ mapRead m k := by
  rw [mapRead]
  cases hl : mapLookup k m with
  | none => simp
  | some v => simpa using h (k, v) (mem_of_mapLookup_eq_some hl)

theorem mem_mapInsert {κ α : Type} [DecidableEq κ] {k : κ} {v : α} {p : κ × α}
    {l : List (κ × α)} (h : p ∈ mapInsert k v l) : p = (k, v) ∨ p ∈ l := by
  induction l with
  | nil =>
    simp [mapInsert] at h
    exact Or.inl h
  | cons q t ih =>
    by_cases hq : q.1 = k
    · simp only [mapInsert, if_pos hq] at h
      rcases List.mem_cons.mp h with h1 | h1
      · exact Or.inl h1
      · exact Or.inr (List.mem_cons_of_mem _ h1)
    · simp only [mapInsert, if_neg hq] at h
      rcases List.mem_cons.mp h with h1 | h1
      · exact Or.inr (h1 ▸ List.mem_cons_self q t)
      · rcases ih h1 with h2 | h2
        · exact Or.inl h2
        · exact Or.inr (List.mem_cons_of_mem _ h2)

theorem mapRead_updOn (f : ℚ → ℚ) (set : List ℤ) :
    ∀ (m : List (ℤ × ℚ)), set.Nodup → ∀ i,
      mapRead (updOn f m set) i = if i ∈ set then f (mapRead m i) else mapRead m i := by
  induction set with
  | nil =>
    intro m _ i
    simp [updOn]
  | cons c cs ih =>
    intro m hnd i
    rw [List.nodup_cons] at hnd
    have hstep : updOn f m (c :: cs) = updOn f (mapInsert c (f (mapRead m c)) m) cs := by
      rw [updOn, List.foldl_cons, updOn]
    rw [hstep, ih _ hnd.2 i, mapRead_mapInsert]
    by_cases hic : i = c
    · subst hic
      rw [if_neg (fun hm => hnd.1 hm), if_pos rfl, if_pos (List.mem_cons_self i cs)]
    · by_cases hics : i ∈ cs
      · rw [if_pos hics, if_neg hic, if_pos (List.mem_cons_of_mem _ hics)]
      · rw [if_neg hics, if_neg hic, if_neg (by
          intro hm
          rcases List.mem_cons.mp hm with h1 | h1
          · exact hic h1
          · exact hics h1)]

/-- The contribution of one assignment entry to a CPU's accumulated
utilisation. -/
def assignWeight (utilMap : List (String × ℚ)) (i : ℤ) (p : String × List ℤ) : ℚ :=
  if i ∈ p.2 then mapRead utilMap p.1 else 0

theorem sumUtilAt_eq (s : RtStateM) (i : ℤ) :
    sumUtilAt s i = (s.assignments.map (assignWeight s.containerToUtil i)).sum := rfl

theorem sum_map_mapInsert {κ α : Type} [DecidableEq κ] (w : κ × α → ℚ) (k : κ) (v : α)
    (l : List (κ × α)) :
    ((mapInsert k v l).map w).sum = w (k, v) + ((mapErase k l).map w).sum := by
  have hp := (perm_mapInsert k v l).map w
  rw [hp.sum_eq]
  simp

theorem sum_map_split_of_lookup {κ α : Type} [DecidableEq κ] (w : κ × α → ℚ) {k : κ}
    {v : α} {l : List (κ × α)} (h : mapLookup k l = some v) :
    (l.map w).sum = w (k, v) + ((mapErase k l).map w).sum := by
  have hp := (perm_cons_mapErase h).map w
  rw [hp.sum_eq]
  simp

theorem sum_map_congr {α : Type} {w1 w2 : α → ℚ} {l : List α}
    (h : ∀ p ∈ l, w1 p = w2 p) : (l.map w1).sum = (l.map w2).sum := by
  induction l with
  | nil => rfl
  | cons p t ih =>
    simp only [List.map_cons, List.sum_cons]
    rw [h p (List.mem_cons_self p t), ih (fun q hq => h q (List.mem_cons_of_mem _ hq))]

/-- The wellformedness and balance invariant of `RtState`: map keys are
unique (they model Go maps), stored CPU sets are duplicate-free
(`cpuset.CPUSet`), stored utilisations are nonnegative (`utilOf ∈ [0,1)`
in the data model), and every CPU's stored utilisation equals the sum of
the utilisations of the containers assigned to it. -/
def rtInv (s : RtStateM) : Prop :=
  (s.assignments.map Prod.fst).Nodup ∧
  (s.containerToUtil.map Prod.fst).Nodup ∧
  (∀ p ∈ s.assignments, p.2.Nodup) ∧
  (∀ p ∈ s.containerToUtil, 0 ≤ p.2) ∧
  (∀ i, mapRead s.cpuToUtil i = sumUtilAt s i)

theorem mapRead_zeros (dset : List ℤ) (i : ℤ) :
    mapRead (dset.map (fun cpu => (cpu, (0 : ℚ)))) i = 0 := by
  induction dset with
  | nil => rfl
  | cons c t ih =>
    rw [List.map_cons, mapRead, mapLookup]
    by_cases h : c = i
    · simp [h]
    · rw [if_neg (by simpa using h)]
      exact ih

theorem rtInv_newRtState (initAssign : List (String × List ℤ)) (defaultCpuSet : List ℤ)
    (hnd : (initAssign.map Prod.fst).Nodup) (hsets : ∀ p ∈ initAssign, p.2.Nodup) :
    rtInv (newRtState initAssign defaultCpuSet) := by
  refine ⟨hnd, by simp [newRtState], hsets, by simp [newRtState], ?_⟩
  intro i
  have hzero : mapRead ((newRtState initAssign defaultCpuSet).cpuToUtil) i = 0 :=
    mapRead_zeros defaultCpuSet i
  rw [hzero, sumUtilAt_eq]
  have hcongr : ∀ p ∈ (newRtState initAssign defaultCpuSet).assignments,
      assignWeight (newRtState initAssign defaultCpuSet).containerToUtil i p
        = (fun _ => (0 : ℚ)) p := by
    intro p _
    rw [assignWeight]
    have : mapRead (newRtState initAssign defaultCpuSet).containerToUtil p.1 = 0 := by
      rw [newRtState, mapRead, mapLookup]
      rfl
    rw [this]
    simp
  rw [sum_map_congr hcongr]
  simp

theorem rtInv_setRt (s : RtStateM) (cid : String) (set : List ℤ) (util : ℚ)
    (hinv : rtInv s) (hset : set.Nodup) (hu : 0 ≤ util) (s2 : RtStateM)
    (h : setRtCPUSetAndUtilOfContainer s cid set util = some s2) : rtInv s2 := by
  obtain ⟨hndA, hndU, hsets, hnn, hbal⟩ := hinv
  have hw2cid : ∀ i, assignWeight (mapInsert cid util s.containerToUtil) i (cid, set)
      = if i ∈ set then util else 0 := by
    intro i
    rw [assignWeight, mapRead_mapInsert]
    simp
  have hcongr : ∀ i, ∀ p ∈ mapErase cid s.assignments,
      assignWeight (mapInsert cid util s.containerToUtil) i p
        = assignWeight s.containerToUtil i p := by
    intro i p hp
    have hne := key_ne_of_mem_mapErase hndA hp
    rw [assignWeight, assignWeight, mapRead_mapInsert, if_neg hne]
  cases hCU : mapLookup cid s.containerToUtil with
  | none =>
    simp only [setRtCPUSetAndUtilOfContainer, hCU] at h
    have hs2 : s2 = { assignments := mapInsert cid set s.assignments,
                      containerToUtil := mapInsert cid util s.containerToUtil,
                      cpuToUtil := updOn (fun v => v + util) s.cpuToUtil set } :=
      (Option.some_injective _ h).symm
    subst hs2
    refine ⟨keys_nodup_mapInsert _ _ _ hndA, keys_nodup_mapInsert _ _ _ hndU, ?_, ?_, ?_⟩
    · intro p hp
      rcases mem_mapInsert hp with rfl | hp2
      · exact hset
      · exact hsets p hp2
    · intro p hp
      rcases mem_mapInsert hp with rfl | hp2
      · exact hu
      · exact hnn p hp2
    · intro i
      show mapRead (updOn (fun v => v + util) s.cpuToUtil set) i = _
      rw [mapRead_updOn _ _ _ hset i, sumUtilAt_eq]
      show _ = ((mapInsert cid set s.assignments).map
        (assignWeight (mapInsert cid util s.containerToUtil) i)).sum
      rw [sum_map_mapInsert, hw2cid i, sum_map_congr (hcongr i)]
      cases hA : mapLookup cid s.assignments with
      | none =>
        rw [mapErase_eq_of_lookup_none hA]
        have hsum : (s.assignments.map (assignWeight s.containerToUtil i)).sum
            = mapRead s.cpuToUtil i := by
          rw [hbal i, sumUtilAt_eq]
        rw [hsum]
        by_cases hi : i ∈ set <;> simp [hi] <;> ring
      | some oldSet =>
        have hsplit := sum_map_split_of_lookup (assignWeight s.containerToUtil i) hA
        have hzero : assignWeight s.containerToUtil i (cid, oldSet) = 0 := by
          rw [assignWeight, show mapRead s.containerToUtil cid = 0 from by
            rw [mapRead, hCU]
            rfl]
          simp
        have hsum : ((mapErase cid s.assignments).map
            (assignWeight s.containerToUtil i)).sum = mapRead s.cpuToUtil i := by
          have hb : mapRead s.cpuToUtil i
              = (s.assignments.map (assignWeight s.containerToUtil i)).sum := by
            rw [hbal i, sumUtilAt_eq]
          rw [hb, hsplit, hzero]
          ring
        rw [hsum]
        by_cases hi : i ∈ set <;> simp [hi] <;> ring
  | some oldUtil =>
    cases hA : mapLookup cid s.assignments with
    | none =>
      simp only [setRtCPUSetAndUtilOfContainer, hCU, hA] at h
      exact absurd h (by simp)
    | some oldSet =>
      simp only [setRtCPUSetAndUtilOfContainer, hCU, hA] at h
      have hs2 : s2 = { assignments := mapInsert cid set s.assignments,
                        containerToUtil := mapInsert cid util s.containerToUtil,
                        cpuToUtil := updOn (fun v => v + util)
                          (updOn (fun v => v - oldUtil) s.cpuToUtil oldSet) set } :=
        (Option.some_injective _ h).symm
      subst hs2
      have holdnd : oldSet.Nodup := hsets (cid, oldSet) (mem_of_mapLookup_eq_some hA)
      refine ⟨keys_nodup_mapInsert _ _ _ hndA, keys_nodup_mapInsert _ _ _ hndU, ?_, ?_, ?_⟩
      · intro p hp
        rcases mem_mapInsert hp with rfl | hp2
        · exact hset
        · exact hsets p hp2
      · intro p hp
        rcases mem_mapInsert hp with rfl | hp2
        · exact hu
        · exact hnn p hp2
      · intro i
        show mapRead (updOn (fun v => v + util)
          (updOn (fun v => v - oldUtil) s.cpuToUtil oldSet) set) i = _
        rw [mapRead_updOn _ _ _ hset i, mapRead_updOn _ _ _ holdnd i, sumUtilAt_eq]
        show _ = ((mapInsert cid set s.assignments).map
          (assignWeight (mapInsert cid util s.containerToUtil) i)).sum
        rw [sum_map_mapInsert, hw2cid i, sum_map_congr (hcongr i)]
        have hsplit := sum_map_split_of_lookup (assignWeight s.containerToUtil i) hA
        have hw1cid : assignWeight s.containerToUtil i (cid, oldSet)
            = if i ∈ oldSet then oldUtil else 0 := by
          rw [assignWeight, show mapRead s.containerToUtil cid = oldUtil from by
            rw [mapRead, hCU]
            rfl]
        have hsum : ((mapErase cid s.assignments).map
            (assignWeight s.containerToUtil i)).sum
            = mapRead s.cpuToUtil i - (if i ∈ oldSet then oldUtil else 0) := by
          have hb : mapRead s.cpuToUtil i
              = (s.assignments.map (assignWeight s.containerToUtil i)).sum := by
            rw [hbal i, sumUtilAt_eq]
          rw [hb, hsplit, hw1cid]
          ring
        rw [hsum]
        by_cases hi : i ∈ set <;> by_cases ho : i ∈ oldSet <;> simp [hi, ho] <;> ring

theorem sum_map_nonneg_weights (l : List (String × List ℤ)) (utilMap : List (String × ℚ))
    (hnn : ∀ p ∈ utilMap, 0 ≤ p.2) (i : ℤ) :
    0 ≤ (l.map (assignWeight utilMap i)).sum := by
  apply List.sum_nonneg
  intro x hx
  rcases List.mem_map.mp hx with ⟨p, -, rfl⟩
  rw [assignWeight]
  by_cases hi : i ∈ p.2
  · rw [if_pos hi]
    exact mapRead_nonneg _ _ hnn
  · rw [if_neg hi]

theorem rtInv_rtDelete (s : RtStateM) (cid : String) (hinv : rtInv s) (s2 : RtStateM)
    (h : rtDelete s cid = some s2) : rtInv s2 := by
  obtain ⟨hndA, hndU, hsets, hnn, hbal⟩ := hinv
  cases hA : mapLookup cid s.assignments with
  | none =>
    simp only [rtDelete, hA] at h
    exact absurd h (by simp)
  | some set0 =>
    cases hCU : mapLookup cid s.containerToUtil with
    | none =>
      have hget : getRtCPUSetAndUtilOfContainer s cid = none := by
        simp only [getRtCPUSetAndUtilOfContainer, hA, hCU]
      simp only [rtDelete, hA, hget] at h
      have hs2 : s2 = { s with assignments := mapErase cid s.assignments } :=
        (Option.some_injective _ h).symm
      subst hs2
      refine ⟨keys_nodup_mapErase _ _ hndA, hndU, ?_, hnn, ?_⟩
      · intro p hp
        exact hsets p (List.Sublist.mem hp (mapErase_sublist cid s.assignments))
      · intro i
        show mapRead s.cpuToUtil i
          = ((mapErase cid s.assignments).map (assignWeight s.containerToUtil i)).sum
        have hsplit := sum_map_split_of_lookup (assignWeight s.containerToUtil i) hA
        have hzero : assignWeight s.containerToUtil i (cid, set0) = 0 := by
          rw [assignWeight, show mapRead s.containerToUtil cid = 0 from by
            rw [mapRead, hCU]
            rfl]
          simp
        have hb : mapRead s.cpuToUtil i
            = (s.assignments.map (assignWeight s.containerToUtil i)).sum := by
          rw [hbal i, sumUtilAt_eq]
        rw [hb, hsplit, hzero]
        ring
    | some util0 =>
      have hget : getRtCPUSetAndUtilOfContainer s cid = some (set0, util0) := by
        simp only [getRtCPUSetAndUtilOfContainer, hA, hCU]
      simp only [rtDelete, hA, hget] at h
      have hs2 : s2 = { assignments := mapErase cid s.assignments,
                        containerToUtil := mapErase cid s.containerToUtil,
                        cpuToUtil := updOn
                          (fun v => if v - util0 < 0 then 0 else v - util0)
                          s.cpuToUtil set0 } :=
        (Option.some_injective _ h).symm
      subst hs2
      have hset0nd : set0.Nodup := hsets (cid, set0) (mem_of_mapLookup_eq_some hA)
      have hcongr : ∀ i, ∀ p ∈ mapErase cid s.assignments,
          assignWeight (mapErase cid s.containerToUtil) i p
            = assignWeight s.containerToUtil i p := by
        intro i p hp
        have hne := key_ne_of_mem_mapErase hndA hp
        rw [assignWeight, assignWeight, mapRead_mapErase_ne _ _ _ hne]
      have hw1cid : ∀ i, assignWeight s.containerToUtil i (cid, set0)
          = if i ∈ set0 then util0 else 0 := by
        intro i
        rw [assignWeight, show mapRead s.containerToUtil cid = util0 from by
          rw [mapRead, hCU]
          rfl]
      have hsum : ∀ i, ((mapErase cid s.assignments).map
          (assignWeight s.containerToUtil i)).sum
          = mapRead s.cpuToUtil i - (if i ∈ set0 then util0 else 0) := by
        intro i
        have hb : mapRead s.cpuToUtil i
            = (s.assignments.map (assignWeight s.containerToUtil i)).sum := by
          rw [hbal i, sumUtilAt_eq]
        rw [hb, sum_map_split_of_lookup (assignWeight s.containerToUtil i) hA, hw1cid i]
        ring
      refine ⟨keys_nodup_mapErase _ _ hndA, keys_nodup_mapErase _ _ hndU, ?_, ?_, ?_⟩
      · intro p hp
        exact hsets p (List.Sublist.mem hp (mapErase_sublist cid s.assignments))
      · intro p hp
        exact hnn p (List.Sublist.mem hp (mapErase_sublist cid s.containerToUtil))
      · intro i
        show mapRead (updOn (fun v => if v - util0 < 0 then 0 else v - util0)
          s.cpuToUtil set0) i = _
        rw [mapRead_updOn _ _ _ hset0nd i, sumUtilAt_eq,
          sum_map_congr (hcongr i), hsum i]
        by_cases hi : i ∈ set0
        · rw [if_pos hi, if_pos hi]
          have hge : 0 ≤ mapRead s.cpuToUtil i - util0 := by
            have hb : mapRead s.cpuToUtil i
                = (s.assignments.map (assignWeight s.containerToUtil i)).sum := by
              rw [hbal i, sumUtilAt_eq]
            have hrest : 0 ≤ ((mapErase cid s.assignments).map
                (assignWeight s.containerToUtil i)).sum :=
              sum_map_nonneg_weights _ _ hnn i
            have := hsum i
            rw [if_pos hi] at this
            linarith
          rw [if_neg (by linarith)]
        · rw [if_neg hi, if_neg hi]
          ring

theorem rtInv_applyRtOps (ops : List RtOp) :
    ∀ s, rtInv s → (∀ op ∈ ops, rtOpWF op) →
      ∀ s2, applyRtOps s ops = some s2 → rtInv s2 := by
  induction ops with
  | nil =>
    intro s hs _ s2 h
    rw [applyRtOps, List.foldlM_nil] at h
    cases h
    exact hs
  | cons op t ih =>
    intro s hs hwf s2 h
    rw [applyRtOps, List.foldlM_cons] at h
    cases hstep : applyRtOp s op with
    | none =>
      rw [hstep] at h
      simp at h
    | some s1 =>
      rw [hstep] at h
      simp only [Option.bind_eq_bind, Option.some_bind] at h
      have hs1 : rtInv s1 := by
        cases op with
        | set cid cpus util =>
          have hwfop := hwf _ (List.mem_cons_self _ t)
          exact rtInv_setRt s cid cpus util hs hwfop.1 hwfop.2 s1 hstep
        | del cid =>
          exact rtInv_rtDelete s cid hs s1 hstep
      exact ih s1 hs1 (fun o ho => hwf o (List.mem_cons_of_mem _ ho)) s2 h

/-! ### Claim C3 -/

/-- C3: starting from a freshly initialised `RtState`, after any finite
sequence of `SetRtCPUSetAndUtilOfContainer` and `Delete` operations that
completes without panicking, for every CPU `i` the stored `cpuUtil[i]`
differs from the sum of utilisations of the containers whose assignment
contains `i` by strictly less than `1e-9` (in the exact-rational model
the difference is 0; the clamp in `Delete` never fires because
utilisations are nonnegative). -/
theorem rtState_balance_invariant
    (initAssign : List (String × List ℤ)) (defaultCpuSet : List ℤ)
    (hnd : (initAssign.map Prod.fst).Nodup)
    (hsets : ∀ p ∈ initAssign, p.2.Nodup)
    (ops : List RtOp) (hops : ∀ op ∈ ops, rtOpWF op)
    (s2 : RtStateM)
    (h : applyRtOps (newRtState initAssign defaultCpuSet) ops = some s2)
    (i : ℤ) :
    |mapRead s2.cpuToUtil i - sumUtilAt s2 i| < 1 / 1000000000 := by
  have hinv := rtInv_applyRtOps ops (newRtState initAssign defaultCpuSet)
    (rtInv_newRtState initAssign defaultCpuSet hnd hsets) hops s2 h
  rw [hinv.2.2.2.2 i]
  norm_num

/-- The state reached by the witness run: container `"a"` deleted from a
freshly wrapped state that carried its assignment but no utilisation. -/
def rtStateAfterDel : RtStateM :=
  { assignments := []
    containerToUtil := []
    cpuToUtil := [(0, 0)] }

/-- C3 (witness). -/
theorem rtState_balance_invariant_witness :
    (([("a", [(0 : ℤ)])].map Prod.fst).Nodup) ∧
    (∀ p ∈ [("a", [(0 : ℤ)])], p.2.Nodup) ∧
    (∀ op ∈ [RtOp.del "a"], rtOpWF op) ∧
    applyRtOps (newRtState [("a", [(0 : ℤ)])] [0]) [RtOp.del "a"] = some rtStateAfterDel ∧
    |mapRead rtStateAfterDel.cpuToUtil 0 - sumUtilAt rtStateAfterDel 0| < 1 / 1000000000 := by
  have hsets : ∀ p ∈ [("a", [(0 : ℤ)])], p.2.Nodup := by
    intro p hp
    rw [List.mem_singleton] at hp
    subst hp
    decide
  have hops : ∀ op ∈ [RtOp.del "a"], rtOpWF op := by
    intro op hop
    rw [List.mem_singleton] at hop
    subst hop
    trivial
  have h4 : applyRtOps (newRtState [("a", [(0 : ℤ)])] [0]) [RtOp.del "a"]
      = some rtStateAfterDel := rfl
  exact ⟨by decide, hsets, hops, h4,
    rtState_balance_invariant [("a", [(0 : ℤ)])] [0] (by decide) hsets
      [RtOp.del "a"] hops rtStateAfterDel h4 0⟩
